import Mathlib

/-!
# Verification of the calculator expression engine (src/app.js)

This file gives a shallow embedding of the expression engine and input
state machine of `src/app.js`, and proves or refutes the frozen claims
about it.

Modelling conventions:

* JavaScript strings are modelled as `List Char` (`Str`).  JS string
  operations are translated operation by operation: `s.at(-1)` is
  `List.getLast?`, `s.slice(0,-1)` is `List.dropLast`, `'＋−×÷'.includes(c)`
  is `List.isInfixOf`, and JS `>=`/`<=` on strings is the lexicographic
  code-unit comparison `strLe`.
* JavaScript numbers are idealised as exact fractions (`JQ`, an integer
  numerator with a positive natural denominator, kept unnormalised so that
  every operation is a structural computation the kernel can evaluate);
  the value `NaN` is `none` in `JNum := Option JQ`.  All arithmetic
  appearing in the verified claims is exact in binary64 (small integers
  and short decimal fractions), so the idealisation is faithful there.
  Binary64 overflow to `Infinity` and the scientific-notation rendering of
  huge/tiny numbers are outside the model; no claim below depends on them.
* `Number.EPSILON` is the exact rational `2⁻⁵²`, `Math.round x` is
  `⌊x + 1/2⌋`, and `String(n)` for the (decimal-valued) results produced by
  `compute` is `numToStr`.
* The DOM plumbing (`updateUI`, event listeners) has no effect on the
  two state fields and is not modelled.
-/

namespace CalcApp

/-- JS strings, modelled as lists of characters. -/
abbrev Str := List Char

/-- An exact fraction `n / d`.  The semantics of the engine keep `d`
positive throughout (all constructed denominators are products of powers
of ten, powers of two and absolute values of non-zero numerators), and no
operation normalises, so every arithmetic step is a plain structural
computation. -/
structure JQ where
  n : ℤ
  d : ℕ
deriving DecidableEq

/-- The fraction for an integer. -/
def JQ.ofInt (i : ℤ) : JQ := ⟨i, 1⟩

instance : OfNat JQ m := ⟨JQ.ofInt m⟩

/-- Exact `a + b`. -/
def JQ.add (a b : JQ) : JQ := ⟨a.n * b.d + b.n * a.d, a.d * b.d⟩

/-- Exact `a - b`. -/
def JQ.sub (a b : JQ) : JQ := ⟨a.n * b.d - b.n * a.d, a.d * b.d⟩

/-- Exact `a * b`. -/
def JQ.mul (a b : JQ) : JQ := ⟨a.n * b.n, a.d * b.d⟩

/-- Exact `a / b`, with the sign moved into the numerator; only used when
`b`'s numerator is non-zero. -/
def JQ.div (a b : JQ) : JQ :=
  if b.n < 0 then ⟨-(a.n * b.d), a.d * b.n.natAbs⟩
  else ⟨a.n * b.d, a.d * b.n.natAbs⟩

/-- Exact `a / 100`. -/
def JQ.div100 (a : JQ) : JQ := ⟨a.n, a.d * 100⟩

/-- `⌊a⌋`, exact on fractions with a positive denominator. -/
def JQ.floorInt (a : JQ) : ℤ := Int.fdiv a.n a.d

/-- `|a|`. -/
def JQ.abs (a : JQ) : JQ := ⟨|a.n|, a.d⟩

/-- JS numbers during evaluation: `none` is `NaN`, `some q` a finite value. -/
abbrev JNum := Option JQ

/-- JS `hay.includes(needle)`: substring containment (true for the empty
needle). -/
def strIncludes (hay needle : Str) : Bool :=
  needle.isPrefixOf hay ||
    match hay with
    | [] => false
    | _ :: t => strIncludes t needle

/-- `const isOp = c => '＋−×÷'.includes(c)`.
JS `String.includes` is substring containment, so the model takes a whole
string argument (the source applies `isOp` both to single characters and to
whole key strings). -/
def isOp (s : Str) : Bool := strIncludes ['＋', '−', '×', '÷'] s

/-- `isOp` specialised to one character, as in `isOp(expr.at(-1))`. -/
def isOpCh (c : Char) : Bool := isOp [c]

/-- The character class `[0-9.]` used by the tokenizer. -/
def isRunCh (c : Char) : Bool := c.isDigit || c = '.'

/-- The loop of `tokenize`: scan the remaining characters with the pending
literal buffer `buf`, flushing the buffer before each operator or percent
token and at the end of input; unrecognised characters are dropped. -/
def tokenizeAux : Str → Str → List Str
  | [], buf => if buf = [] then [] else [buf]
  | c :: rest, buf =>
    if isRunCh c then
      tokenizeAux rest (buf ++ [c])
    else if isOpCh c || c = '%' then
      (if buf = [] then [] else [buf]) ++ [c] :: tokenizeAux rest []
    else
      tokenizeAux rest buf

/-- `function tokenize(s)` of src/app.js. -/
def tokenize (s : Str) : List Str := tokenizeAux s []

/-- Numeric value of a digit list read in base 10. -/
def digitsVal (l : Str) : ℕ :=
  l.foldl (fun a c => a * 10 + (c.toNat - ('0').toNat)) 0

/-- The JS test `!isNaN(t)` together with `Number(t)`, on the token shapes
`tokenize` can produce (runs over `[0-9.]`, and single operator or percent
characters): a token is numeric iff it consists of digits and at most one
dot and contains at least one digit.  `Number("5.") = 5`, `Number(".5") =
0.5`. -/
def jsNum (t : Str) : Option JQ :=
  if t.all isRunCh ∧ t.count '.' ≤ 1 ∧ t.any (fun c => c.isDigit) then
    let ip := t.takeWhile (fun c => c ≠ '.')
    let fp := t.drop (ip.length + 1)
    some ⟨digitsVal ip * 10 ^ fp.length + digitsVal fp, 10 ^ fp.length⟩
  else
    none

/-- Items of the RPN output queue: JS mixes numbers (`Number(t)`) and
operator strings in the `out` array. -/
inductive RTok where
  | num (q : JQ)
  | sym (s : Str)
deriving DecidableEq

/-- `const prec = { '＋': 1, '−': 1, '×': 2, '÷': 2, '%': 3 }`; `none` is the
JS `undefined` lookup result. -/
def prec (t : Str) : Option ℕ :=
  if t = ['＋'] ∨ t = ['−'] then some 1
  else if t = ['×'] ∨ t = ['÷'] then some 2
  else if t = ['%'] then some 3
  else none

/-- JS `prec[a] >= prec[b]`: comparisons against `undefined` are false. -/
def precGE (a b : Option ℕ) : Bool :=
  match a, b with
  | some x, some y => x ≥ y
  | _, _ => false

/-- JS `prec[a] > prec[b]`: comparisons against `undefined` are false. -/
def precGT (a b : Option ℕ) : Bool :=
  match a, b with
  | some x, some y => x > y
  | _, _ => false

/-- `while (op.length && prec[op.at(-1)] >= prec[t]) out.push(op.pop())`:
returns the popped operators (in emission order) and the remaining stack.
The operator stack is a list with its top first. -/
def popGE (tp : Option ℕ) : List Str → List Str × List Str
  | [] => ([], [])
  | o :: os =>
    if precGE (prec o) tp then
      let (p, r) := popGE tp os
      (o :: p, r)
    else
      ([], o :: os)

/-- The percent variant, popping strictly greater precedences only. -/
def popGT (tp : Option ℕ) : List Str → List Str × List Str
  | [] => ([], [])
  | o :: os =>
    if precGT (prec o) tp then
      let (p, r) := popGT tp os
      (o :: p, r)
    else
      ([], o :: os)

/-- The loop of `toRPN` over the remaining tokens, with operator stack
`opst` (top first).  In the binary-operator branch the source also tests
`!rightAssoc[t]`; since `rightAssoc` maps only `'%'` and `'%'` is handled
by the preceding branch, that test is constant true and is omitted. -/
def toRPNAux : List Str → List Str → List RTok
  | [], opst => opst.map RTok.sym
  | t :: ts, opst =>
    match jsNum t with
    | some q => RTok.num q :: toRPNAux ts opst
    | none =>
      if t = ['%'] then
        let (p, r) := popGT (prec t) opst
        p.map RTok.sym ++ toRPNAux ts (t :: r)
      else
        let (p, r) := popGE (prec t) opst
        p.map RTok.sym ++ toRPNAux ts (t :: r)

/-- `function toRPN(tokens)` of src/app.js. -/
def toRPN (tokens : List Str) : List RTok := toRPNAux tokens []

/-- `a / 100` on the operand stack; `undefined / 100` and `NaN / 100` are
both `NaN`, so popping an empty stack pushes `NaN`. -/
def jsDiv100 : JNum → JNum := Option.map JQ.div100

/-- JS `a + b` with NaN propagation. -/
def jsAdd (a b : JNum) : JNum :=
  match a, b with
  | some x, some y => some (x.add y)
  | _, _ => none

/-- JS `a - b` with NaN propagation. -/
def jsSub (a b : JNum) : JNum :=
  match a, b with
  | some x, some y => some (x.sub y)
  | _, _ => none

/-- JS `a * b` with NaN propagation. -/
def jsMul (a b : JNum) : JNum :=
  match a, b with
  | some x, some y => some (x.mul y)
  | _, _ => none

/-- `b === 0 ? NaN : a / b`, with NaN propagation (`b === 0` holds exactly
when `b`'s numerator is zero). -/
def jsDiv (a b : JNum) : JNum :=
  match b with
  | some y => if y.n = 0 then none else a.map (fun x => x.div y)
  | none => none

/-- The loop of `evalRPN`: `none` is the early `return NaN` (an operator
evaluated with too few operands, or an unknown operator); otherwise the
final operand stack (top first) is returned. -/
def evalSteps : List RTok → List JNum → Option (List JNum)
  | [], st => some st
  | RTok.num q :: ts, st => evalSteps ts (some q :: st)
  | RTok.sym s :: ts, st =>
    if s = ['%'] then
      match st with
      | [] => evalSteps ts [none]
      | a :: r => evalSteps ts (jsDiv100 a :: r)
    else
      match st with
      | b :: a :: r =>
        if s = ['＋'] then evalSteps ts (jsAdd a b :: r)
        else if s = ['−'] then evalSteps ts (jsSub a b :: r)
        else if s = ['×'] then evalSteps ts (jsMul a b :: r)
        else if s = ['÷'] then evalSteps ts (jsDiv a b :: r)
        else none
      | _ => none

/-- `function evalRPN(rpn)` of src/app.js: run the stack machine; the final
`return st.length ? st[0] : NaN` reads the bottom (first-pushed) element of
the stack, and an empty stack yields `NaN`. -/
def evalRPN (rpn : List RTok) : JNum :=
  match evalSteps rpn [] with
  | none => none
  | some st =>
    match st.getLast? with
    | some v => v
    | none => none

/-- `Number.EPSILON`, exactly `2⁻⁵²`. -/
def jsEps : JQ := ⟨1, 2 ^ 52⟩

/-- `Math.round((res + Number.EPSILON) * 1e12) / 1e12`, with `Math.round`
idealised as floor of `x + 1/2`. -/
def jsRound1e12 (q : JQ) : JQ :=
  ⟨(((q.add jsEps).mul (JQ.ofInt (10 ^ 12))).add ⟨1, 2⟩).floorInt, 10 ^ 12⟩

/-- Decimal digit list of a natural number, with explicit fuel so that the
kernel can evaluate it (`natDigs` supplies fuel `n`, which always
suffices since `n / 10 < n` for `n ≥ 10`). -/
def natDigsAux : ℕ → ℕ → Str
  | 0, n => [Nat.digitChar n]
  | fuel + 1, n =>
    if n < 10 then [Nat.digitChar n]
    else natDigsAux fuel (n / 10) ++ [Nat.digitChar (n % 10)]

/-- Decimal digit list of a natural number, as JS renders integers. -/
def natDigs (n : ℕ) : Str := natDigsAux n n

/-- Drop trailing `'0'` characters (used for the fractional part). -/
def dropTrailZeros (l : Str) : Str :=
  (l.reverse.dropWhile (fun c => c = '0')).reverse

/-- `String(res)` for the values `compute` produces: `compute` rounds its
result to a multiple of `10⁻¹²`, and JS renders such a number as an
optional sign, the integer part, and the fractional digits with trailing
zeros removed (scientific notation for huge values is outside the model). -/
def numToStr (q : JQ) : Str :=
  let k : ℕ := ((q.abs.mul (JQ.ofInt (10 ^ 12))).floorInt).toNat
  let ip := k / 10 ^ 12
  let fr := k % 10 ^ 12
  let frDigs := natDigs fr
  let frPad := List.replicate (12 - frDigs.length) '0' ++ frDigs
  let frStr := dropTrailZeros frPad
  (if q.n < 0 then ['-'] else []) ++ natDigs ip ++
    (if frStr = [] then [] else '.' :: frStr)

/-- Return values of `compute`: the source returns the number `0` on empty
input and strings everywhere else. -/
inductive JSVal where
  | num (q : JQ)
  | str (s : Str)
deriving DecidableEq

/-- `function compute(s)` of src/app.js. -/
def compute (s : Str) : JSVal :=
  if s = [] then JSVal.num 0
  else
    match evalRPN (toRPN (tokenize s)) with
    | none => JSVal.str ['E', 'r', 'r']
    | some q => JSVal.str (numToStr (jsRound1e12 q))

/-- `compute` as stored into the string-valued state fields.  Through
`press`, `compute` is only ever called on a non-empty argument (`expr ||
display` with `display` initially `"0"`), so the `num` case — the number
`0`, which the page would render as `0` — is unreachable there; the model
stores its decimal rendering. -/
def computeStr (s : Str) : Str :=
  match compute s with
  | JSVal.num q => numToStr q
  | JSVal.str r => r

/-- The two module-level state fields of src/app.js. -/
structure CalcState where
  expr : Str
  display : Str
deriving DecidableEq

/-- `let expr = ''; let display = '0'`. -/
def initState : CalcState := ⟨[], ['0']⟩

/-- The trailing-number scanner shared by the regexes
`([0-9]*\.?[0-9]*)$` and `([0-9]*\.?[0-9]*%?)$`: on the reversed string,
take the trailing digits, then one optional dot, then more digits.  This
computes the longest suffix matching `[0-9]*\.?[0-9]*`, which is what the
JS leftmost-match rule returns for these end-anchored patterns. -/
def numSuffixRev (r : Str) : Str :=
  let d2 := r.takeWhile (fun c => c.isDigit)
  match r.drop d2.length with
  | '.' :: r3 => d2 ++ '.' :: r3.takeWhile (fun c => c.isDigit)
  | _ => d2

/-- `function getCurrentNumber(s)`: the capture of `([0-9]*\.?[0-9]*)$`. -/
def getCurrentNumber (s : Str) : Str := (numSuffixRev s.reverse).reverse

/-- The capture of `([0-9]*\.?[0-9]*%?)$` used by `tailDisplay`. -/
def tailNumPct (s : Str) : Str :=
  match s.reverse with
  | '%' :: r => ('%' :: numSuffixRev r).reverse
  | r => (numSuffixRev r).reverse

/-- `function tailDisplay(s)` of src/app.js: a trailing operator or percent
is shown alone; otherwise the trailing number run, falling back to the
whole string when that run is empty (for the empty string, `s.at(-1)` is
`undefined`, both character tests fail, and the match is empty, so the
fallback also returns `s`). -/
def tailDisplay (s : Str) : Str :=
  match s.getLast? with
  | some c =>
    if isOpCh c || c = '%' then [c]
    else if tailNumPct s = [] then s else tailNumPct s
  | none => if tailNumPct s = [] then s else tailNumPct s

/-- The regex test `/[0-9]$/.test(s)`. -/
def lastIsDigit (s : Str) : Bool :=
  match s.getLast? with
  | some c => c.isDigit
  | none => false

/-- `isOp(expr.at(-1))`; `isOp(undefined)` is false in JS. -/
def lastIsOp (s : Str) : Bool :=
  match s.getLast? with
  | some c => isOpCh c
  | none => false

/-- `isOp(expr.at(-2))`; `undefined` when the string is shorter. -/
def secondLastIsOp (s : Str) : Bool :=
  match s.dropLast.getLast? with
  | some c => isOpCh c
  | none => false

/-- JS `<=` on strings: lexicographic comparison of code units, with a
proper prefix comparing below any extension. -/
def strLe : Str → Str → Bool
  | [], _ => true
  | _ :: _, [] => false
  | a :: as, b :: bs =>
    if a.toNat < b.toNat then true
    else if b.toNat < a.toNat then false
    else strLe as bs

/-- The `'C'` branch of `press`: reset both fields. -/
def pressClear : CalcState := ⟨[], ['0']⟩

/-- The `'DEL'` branch of `press`: drop the last character of `expr` when
non-empty, then re-derive `display` (`'0'` when `expr` is empty). -/
def pressDel (s : CalcState) : CalcState :=
  if s.expr.length ≠ 0 then
    ⟨s.expr.dropLast,
      if s.expr.dropLast = [] then ['0'] else tailDisplay s.expr.dropLast⟩
  else
    ⟨s.expr, if s.expr = [] then ['0'] else tailDisplay s.expr⟩

/-- The `'='` branch of `press`: `compute(expr || display)`, stored into
`display`, and into `expr` unless it is the error marker. -/
def pressEval (s : CalcState) : CalcState :=
  if computeStr (if s.expr = [] then s.display else s.expr) = ['E', 'r', 'r'] then
    ⟨[], computeStr (if s.expr = [] then s.display else s.expr)⟩
  else
    ⟨computeStr (if s.expr = [] then s.display else s.expr),
      computeStr (if s.expr = [] then s.display else s.expr)⟩

/-- The `'.'` branch of `press`: ignored when the current number already
has a dot; otherwise append `'.'` after a digit and `"0."` elsewhere. -/
def pressDot (s : CalcState) : CalcState :=
  if (getCurrentNumber s.expr).contains '.' then s
  else if s.expr ≠ [] ∧ lastIsDigit s.expr then
    ⟨s.expr ++ ['.'], tailDisplay (s.expr ++ ['.'])⟩
  else
    ⟨s.expr ++ ['0', '.'], tailDisplay (s.expr ++ ['0', '.'])⟩

/-- The `'%'` branch of `press`: applies only after a digit. -/
def pressPct (s : CalcState) : CalcState :=
  if lastIsDigit s.expr then
    ⟨s.expr ++ ['%'], tailDisplay (s.expr ++ ['%'])⟩
  else s

/-- The trailing-operator and trailing-dot stripping performed before an
operator key is appended. -/
def stripForOp (e : Str) : Str :=
  if (if lastIsOp e then e.dropLast else e).getLast? = some '.' then
    (if lastIsOp e then e.dropLast else e).dropLast
  else
    (if lastIsOp e then e.dropLast else e)

/-- The operator branch of `press`: on an empty buffer only `'−'` seeds
`"0−"`; otherwise strip a trailing operator and a trailing dot, then
append the key. -/
def pressOp (k : Str) (s : CalcState) : CalcState :=
  if s.expr = [] then
    if k = ['−'] then ⟨['0', '−'], ['−']⟩ else s
  else
    ⟨stripForOp s.expr ++ k, k⟩

/-- The digit branch of `press`, including the leading-zero replacement. -/
def pressDigit (k : Str) (s : CalcState) : CalcState :=
  if s.expr.getLast? = some '0' ∧
      (s.expr.length = 1 ∨ secondLastIsOp s.expr) ∧ k ≠ ['0'] then
    ⟨s.expr.dropLast ++ k, tailDisplay (s.expr.dropLast ++ k)⟩
  else
    ⟨s.expr ++ k, tailDisplay (s.expr ++ k)⟩

/-- `function press(k)` of src/app.js, as a pure transition on the two
state fields (the source mutates module globals and calls `updateUI`,
which only writes the DOM).  Each branch of the source's if-chain is the
correspondingly named function above; in the `DEL` branch the source
computes the new `expr` first and derives `display` from it, which
`pressDel` mirrors by case analysis on the emptiness tests. -/
def press (k : Str) (s : CalcState) : CalcState :=
  if k = ['C'] then pressClear
  else if k = ['D', 'E', 'L'] then pressDel s
  else if k = ['='] then pressEval s
  else if k = ['.'] then pressDot s
  else if k = ['%'] then pressPct s
  else if isOp k then pressOp k s
  else if strLe ['0'] k ∧ strLe k ['9'] then pressDigit k s
  else s

/-- A finite sequence of key presses from a given state. -/
def pressSeq (ks : List Str) (s : CalcState) : CalcState :=
  ks.foldl (fun s k => press k s) s

/-- The logical key alphabet of §6 of the spec. -/
def keyAlphabet : List Str :=
  [['0'], ['1'], ['2'], ['3'], ['4'], ['5'], ['6'], ['7'], ['8'], ['9'],
   ['.'], ['＋'], ['−'], ['×'], ['÷'], ['%'], ['='], ['C'], ['D', 'E', 'L']]

/-! ## The well-formed-prefix grammar of the claims

The invariant claim speaks of token sequences that are "well-formed
prefixes of a valid infix expression, trailing binary operator allowed".
The following definitions formalise that grammar from the spec's words: a
token is a number, a binary operator or the postfix percent; a sequence is
a well-formed prefix when numbers and binary operators alternate starting
from a number, percents attach to a completed operand, and the sequence
may stop after a binary operator. -/

/-- Classification of a token produced by `tokenize`, with the same
numeric test (`!isNaN`) the converter uses. -/
inductive TokC where
  | num
  | op
  | pct
  | bad
deriving DecidableEq

/-- Classify one token string. -/
def tokC (t : Str) : TokC :=
  if (jsNum t).isSome then TokC.num
  else if t = ['%'] then TokC.pct
  else
    match t with
    | [c] => if isOpCh c then TokC.op else TokC.bad
    | _ => TokC.bad

/-- States of the prefix grammar: `T0` nothing yet, `TN` after a completed
operand (possibly with percents), `TO` after a binary operator awaiting an
operand, `TP` after a percent. -/
inductive TSt where
  | T0
  | TN
  | TO
  | TP
deriving DecidableEq

/-- One grammar step.  With `relaxed := false` this is the claim's
grammar; `relaxed := true` additionally lets a new operand begin directly
after a percent (the behaviour the digit and decimal-point handlers
actually allow). -/
def tstep (relaxed : Bool) (st : TSt) (c : TokC) : Option TSt :=
  match st, c with
  | TSt.T0, TokC.num => some TSt.TN
  | TSt.TN, TokC.op => some TSt.TO
  | TSt.TN, TokC.pct => some TSt.TP
  | TSt.TO, TokC.num => some TSt.TN
  | TSt.TP, TokC.op => some TSt.TO
  | TSt.TP, TokC.pct => some TSt.TP
  | TSt.TP, TokC.num => if relaxed then some TSt.TN else none
  | _, _ => none

/-- Run the prefix grammar over a token sequence. -/
def runTok (relaxed : Bool) (ts : List Str) : Option TSt :=
  ts.foldl (fun a t => a.bind (fun s => tstep relaxed s (tokC t))) (some TSt.T0)

/-- The claim's property: empty or a well-formed prefix of a valid infix
expression, trailing binary operator allowed. -/
def WFPrefix (ts : List Str) : Bool := (runTok false ts).isSome

/-- The relaxed grammar that also admits an operand starting right after a
percent. -/
def WFPrefixRelaxed (ts : List Str) : Bool := (runTok true ts).isSome

end CalcApp

namespace CalcApp

/-! ## Claims settled by direct computation -/

/-- **C1, counterexample.**  The claim says the evaluator succeeds only
with exactly one value left and that an empty final stack evaluates to 0.
In the code (`return st.length ? st[0] : NaN`), an empty final stack gives
`NaN`, and a stack with two leftover values succeeds, returning the
first-pushed value: `evalRPN` on the two-number sequence `3 4` returns
`3`. -/
theorem c1_counterexample :
    evalRPN [] = none ∧
      evalRPN [RTok.num (JQ.ofInt 3), RTok.num (JQ.ofInt 4)] = some (JQ.ofInt 3) := by
  decide

/-- **C1, amended.**  After the loop finishes with final stack `st` (no
early arity failure), `evalRPN` returns the bottom (first-pushed) element
when the stack is non-empty — succeeding even when several values remain —
and `NaN` when the stack is empty; the `0` for empty input is produced by
`compute`, before the evaluator ever runs. -/
theorem c1_amended (rpn : List RTok) (st : List JNum)
    (h : evalSteps rpn [] = some st) :
    evalRPN rpn = (st.getLast?).getD none ∧
      (st = [] → evalRPN rpn = none) ∧ compute [] = JSVal.num (JQ.ofInt 0) := by
  refine ⟨?_, ?_, by decide⟩
  · unfold evalRPN
    rw [h]
    cases hl : st.getLast? <;> simp [hl]
  · intro he
    unfold evalRPN
    rw [h, he]
    rfl

/-- Witness for `c1_amended` at the concrete run `3 4`. -/
theorem c1_amended_witness :
    evalRPN [RTok.num (JQ.ofInt 3), RTok.num (JQ.ofInt 4)] =
      (([some (JQ.ofInt 4), some (JQ.ofInt 3)].getLast?).getD none) :=
  (c1_amended [RTok.num (JQ.ofInt 3), RTok.num (JQ.ofInt 4)]
    [some (JQ.ofInt 4), some (JQ.ofInt 3)] (by decide)).1

/-- **C2, counterexample.**  Pressing `5`, `%`, `3` — all keys of the
logical alphabet — leaves `expr = "5%3"`, whose token sequence
`[5, %, 3]` is not a well-formed prefix of a valid infix expression: a new
operand begins right after a percent with no operator between.  The digit
handler does not guard against a preceding percent. -/
theorem c2_counterexample :
    (∀ k ∈ [['5'], ['%'], ['3']], k ∈ keyAlphabet) ∧
      (pressSeq [['5'], ['%'], ['3']] initState).expr = ['5', '%', '3'] ∧
      WFPrefix (tokenize (pressSeq [['5'], ['%'], ['3']] initState).expr) = false := by
  decide

/-- **C3.**  `compute("2＋3×4")` is the string `"14"`: multiplication
binds tighter than addition under the shunting-yard conversion. -/
theorem c3_precedence : compute ['2', '＋', '3', '×', '4'] = JSVal.str ['1', '4'] := by
  decide

/-- **C4 (code bug).**  After `−`, `5`, `=` the state is
`("-5", "-5")` — a successful evaluation whose result is not the error
marker.  The claim says a second Evaluate press is a no-op, but pressing
`=` again yields `("5", "5")`: JS `String(-5)` renders the sign as the
ASCII hyphen, which the tokenizer silently drops, so recomputing flips the
sign. -/
theorem c4_repeat_evaluate_diverges :
    pressSeq [['−'], ['5'], ['=']] initState = ⟨['-', '5'], ['-', '5']⟩ ∧
      pressSeq [['−'], ['5'], ['='], ['=']] initState = ⟨['5'], ['5']⟩ := by
  decide

/-- **C5, counterexample.**  `compute('')` executes `return 0` — the
number `0`, not the string `"0"` (every other branch returns a string). -/
theorem c5_counterexample :
    compute [] = JSVal.num (JQ.ofInt 0) ∧ compute [] ≠ JSVal.str ['0'] := by
  decide

/-- **C5, amended.**  `compute` applied to the empty string returns the
numeric value `0`, whose decimal rendering is the string `"0"`. -/
theorem c5_amended :
    compute [] = JSVal.num (JQ.ofInt 0) ∧ computeStr [] = ['0'] := by
  decide

/-- **C6, counterexample.**  The sequence `5`, `DEL` — containing no
evaluate and no clear — leaves the state `("", "0")`, and
`tailDisplay("")` is the empty string: it is not non-empty and does not
equal `display`. -/
theorem c6_counterexample :
    pressSeq [['5'], ['D', 'E', 'L']] initState = ⟨[], ['0']⟩ ∧
      tailDisplay [] = [] := by
  decide

/-- **C7.**  `compute("5÷0")` is `"Err"`: the division-by-zero branch
produces the NaN data value (no exception, no infinity), which the
pipeline surfaces as the error marker. -/
theorem c7_div_by_zero :
    compute ['5', '÷', '0'] = JSVal.str ['E', 'r', 'r'] ∧
      evalRPN [RTok.num (JQ.ofInt 5), RTok.num (JQ.ofInt 0), RTok.sym ['÷']] = none := by
  decide

/-- **C9, counterexample.**  The key `"12"` is outside the logical
alphabet, yet `press("12")` is not a no-op: the digit test
`k >= '0' && k <= '9'` is a lexicographic string comparison, so `"12"`
passes it and both its characters are appended to `expr`. -/
theorem c9_counterexample :
    ¬ ['1', '2'] ∈ keyAlphabet ∧ press ['1', '2'] initState ≠ initState := by
  decide

/-- **C10, counterexample.**  `press('')` reaches the operator branch
(`'＋−×÷'.includes('')` is true) and sets `display` to the empty key: after
`5`, `＋`, `''` the display is the empty string. -/
theorem c10_counterexample :
    (pressSeq [['5'], ['＋'], []] initState).display = [] := by
  decide

/-! ## Basic facts about the display projections -/

/-- `natDigsAux` never produces the empty list. -/
theorem natDigsAux_ne_nil (fuel n : ℕ) : natDigsAux fuel n ≠ [] := by
  cases fuel with
  | zero => simp [natDigsAux]
  | succ f =>
    unfold natDigsAux
    split
    · simp
    · simp

/-- `natDigs` never produces the empty list. -/
theorem natDigs_ne_nil (n : ℕ) : natDigs n ≠ [] := natDigsAux_ne_nil n n

/-- `numToStr` never produces the empty string (JS `String(x)` of a number
is never empty). -/
theorem numToStr_ne_nil (q : JQ) : numToStr q ≠ [] := by
  unfold numToStr
  intro h
  simp only [List.append_eq_nil] at h
  exact natDigs_ne_nil _ h.1.2

/-- `computeStr` never produces the empty string: every result is `"0"`,
`"Err"`, or a rendered number. -/
theorem computeStr_ne_nil (s : Str) : computeStr s ≠ [] := by
  by_cases hs : s = []
  · subst hs; decide
  · unfold computeStr compute
    rw [if_neg hs]
    cases h : evalRPN (toRPN (tokenize s)) with
    | none => simp
    | some q => exact numToStr_ne_nil _

/-- The tail-display projection of a non-empty string is non-empty: it is
a single trailing symbol, a non-empty number run, or the whole string. -/
theorem tailDisplay_ne_nil (s : Str) (h : s ≠ []) : tailDisplay s ≠ [] := by
  unfold tailDisplay
  split
  · split
    · simp
    · split
      · exact h
      · next ht => exact ht
  · split
    · exact h
    · next ht => exact ht

/-- A list extended on the right by a non-empty list is non-empty. -/
theorem append_ne_nil_right (l t : Str) (ht : t ≠ []) : l ++ t ≠ [] := by
  intro h
  simp only [List.append_eq_nil] at h
  exact ht h.2

/-- A trailing operator or percent character is shown alone by the
tail-display projection. -/
theorem tailDisplay_concat_op (l : Str) (c : Char) (h : isOpCh c = true) :
    tailDisplay (l ++ [c]) = [c] := by
  unfold tailDisplay
  rw [List.getLast?_concat]
  simp only [h, Bool.true_or, if_true]

/-- The delete branch always leaves a non-empty display. -/
theorem pressDel_display_ne_nil (s : CalcState) : (pressDel s).display ≠ [] := by
  unfold pressDel
  split
  · dsimp only
    split
    · simp
    · exact tailDisplay_ne_nil _ (by assumption)
  · dsimp only
    split
    · simp
    · exact tailDisplay_ne_nil _ (by assumption)

/-- The evaluate branch always leaves a non-empty display. -/
theorem pressEval_display_ne_nil (s : CalcState) : (pressEval s).display ≠ [] := by
  unfold pressEval
  split <;> split <;> exact computeStr_ne_nil _

/-- The decimal-point branch keeps the display non-empty. -/
theorem pressDot_display_ne_nil (s : CalcState) (hd : s.display ≠ []) :
    (pressDot s).display ≠ [] := by
  unfold pressDot
  split
  · exact hd
  · split
    · exact tailDisplay_ne_nil _ (append_ne_nil_right _ _ (List.cons_ne_nil _ _))
    · exact tailDisplay_ne_nil _ (append_ne_nil_right _ _ (List.cons_ne_nil _ _))

/-- The percent branch keeps the display non-empty. -/
theorem pressPct_display_ne_nil (s : CalcState) (hd : s.display ≠ []) :
    (pressPct s).display ≠ [] := by
  unfold pressPct
  split
  · exact tailDisplay_ne_nil _ (append_ne_nil_right _ _ (List.cons_ne_nil _ _))
  · exact hd

/-- The operator branch keeps the display non-empty for a non-empty key. -/
theorem pressOp_display_ne_nil (k : Str) (s : CalcState) (hk : k ≠ [])
    (hd : s.display ≠ []) : (pressOp k s).display ≠ [] := by
  unfold pressOp
  split
  · split
    · simp
    · exact hd
  · exact hk

/-- The digit branch keeps the display non-empty for a non-empty key. -/
theorem pressDigit_display_ne_nil (k : Str) (s : CalcState) (hk : k ≠ []) :
    (pressDigit k s).display ≠ [] := by
  unfold pressDigit
  split
  · exact tailDisplay_ne_nil _ (append_ne_nil_right _ _ hk)
  · exact tailDisplay_ne_nil _ (append_ne_nil_right _ _ hk)

/-- One press with a non-empty key keeps the display non-empty. -/
theorem press_display_ne_nil (k : Str) (s : CalcState) (hk : k ≠ [])
    (hd : s.display ≠ []) : (press k s).display ≠ [] := by
  unfold press
  split
  · decide
  · split
    · exact pressDel_display_ne_nil s
    · split
      · exact pressEval_display_ne_nil s
      · split
        · exact pressDot_display_ne_nil s hd
        · split
          · exact pressPct_display_ne_nil s hd
          · split
            · exact pressOp_display_ne_nil k s hk hd
            · split
              · exact pressDigit_display_ne_nil k s hk
              · exact hd

/-- **C10, amended.**  For every finite sequence of press calls whose keys
are non-empty strings, the display stays non-empty.  (The claim as stated
fails only for the empty key string, which JS substring containment sends
into the operator branch.) -/
theorem c10_amended (ks : List Str) (h : ∀ k ∈ ks, k ≠ []) :
    (pressSeq ks initState).display ≠ [] := by
  have main : ∀ (l : List Str) (s : CalcState), (∀ k ∈ l, k ≠ []) →
      s.display ≠ [] → (pressSeq l s).display ≠ [] := by
    intro l
    induction l with
    | nil => intro s _ hd; exact hd
    | cons k t ih =>
      intro s hl hd
      exact ih (press k s) (fun x hx => hl x (List.mem_cons_of_mem _ hx))
        (press_display_ne_nil k s (hl k (by simp)) hd)
  exact main ks initState h (by decide)

/-- Witness for `c10_amended` on the one-key sequence `5`. -/
theorem c10_amended_witness : (pressSeq [['5']] initState).display ≠ [] :=
  c10_amended [['5']] (by decide)

/-- **C9, amended.**  `press` is a no-op for every key outside the logical
alphabet that is neither a substring of `'＋−×÷'` (such keys reach the
operator branch) nor lexicographically between `"0"` and `"9"` (such keys
pass the JS string comparison `k >= '0' && k <= '9'` and reach the digit
branch). -/
theorem c9_amended (k : Str) (s : CalcState) (hk : k ∉ keyAlphabet)
    (hop : isOp k = false)
    (hdig : ¬(strLe ['0'] k = true ∧ strLe k ['9'] = true)) : press k s = s := by
  have h1 : k ≠ ['C'] := fun he => hk (he ▸ (by decide : (['C'] : Str) ∈ keyAlphabet))
  have h2 : k ≠ ['D', 'E', 'L'] :=
    fun he => hk (he ▸ (by decide : (['D', 'E', 'L'] : Str) ∈ keyAlphabet))
  have h3 : k ≠ ['='] := fun he => hk (he ▸ (by decide : (['='] : Str) ∈ keyAlphabet))
  have h4 : k ≠ ['.'] := fun he => hk (he ▸ (by decide : (['.'] : Str) ∈ keyAlphabet))
  have h5 : k ≠ ['%'] := fun he => hk (he ▸ (by decide : (['%'] : Str) ∈ keyAlphabet))
  unfold press
  simp [h1, h2, h3, h4, h5, hop, hdig]

/-- Witness for `c9_amended` at the key `"x"`. -/
theorem c9_amended_witness : press ['x'] initState = initState :=
  c9_amended ['x'] initState (by decide) (by decide) (by decide)

/-- The delete branch establishes the round-trip invariant on its own:
whenever the new `expr` is non-empty the new display is its tail-display. -/
theorem pressDel_roundtrip (s : CalcState) :
    (pressDel s).expr ≠ [] →
      tailDisplay (pressDel s).expr = (pressDel s).display ∧
        tailDisplay (pressDel s).expr ≠ [] := by
  unfold pressDel
  split
  · dsimp only
    split
    · intro he; exact absurd (by assumption) he
    · intro he; exact ⟨rfl, tailDisplay_ne_nil _ he⟩
  · dsimp only
    split
    · intro he; exact absurd (by assumption) he
    · intro he; exact ⟨rfl, tailDisplay_ne_nil _ he⟩

/-- The decimal-point branch preserves the round-trip invariant. -/
theorem pressDot_roundtrip (s : CalcState)
    (hI : s.expr ≠ [] → tailDisplay s.expr = s.display ∧ tailDisplay s.expr ≠ []) :
    (pressDot s).expr ≠ [] →
      tailDisplay (pressDot s).expr = (pressDot s).display ∧
        tailDisplay (pressDot s).expr ≠ [] := by
  unfold pressDot
  split
  · exact hI
  · split
    · intro he; exact ⟨rfl, tailDisplay_ne_nil _ he⟩
    · intro he; exact ⟨rfl, tailDisplay_ne_nil _ he⟩

/-- The percent branch preserves the round-trip invariant. -/
theorem pressPct_roundtrip (s : CalcState)
    (hI : s.expr ≠ [] → tailDisplay s.expr = s.display ∧ tailDisplay s.expr ≠ []) :
    (pressPct s).expr ≠ [] →
      tailDisplay (pressPct s).expr = (pressPct s).display ∧
        tailDisplay (pressPct s).expr ≠ [] := by
  unfold pressPct
  split
  · intro he; exact ⟨rfl, tailDisplay_ne_nil _ he⟩
  · exact hI

/-- The operator branch, for a single operator character, establishes the
round-trip invariant: the new display is exactly the trailing operator. -/
theorem pressOp_roundtrip (c : Char) (s : CalcState) (hc : isOpCh c = true)
    (hI : s.expr ≠ [] → tailDisplay s.expr = s.display ∧ tailDisplay s.expr ≠ []) :
    (pressOp [c] s).expr ≠ [] →
      tailDisplay (pressOp [c] s).expr = (pressOp [c] s).display ∧
        tailDisplay (pressOp [c] s).expr ≠ [] := by
  unfold pressOp
  split
  · split
    · next h =>
      have hc' : c = '−' := by simpa using h
      subst hc'
      intro _
      exact ⟨by decide, by decide⟩
    · exact hI
  · intro _
    refine ⟨tailDisplay_concat_op _ c hc, ?_⟩
    rw [tailDisplay_concat_op _ c hc]
    simp

/-- The digit branch establishes the round-trip invariant. -/
theorem pressDigit_roundtrip (k : Str) (s : CalcState) :
    (pressDigit k s).expr ≠ [] →
      tailDisplay (pressDigit k s).expr = (pressDigit k s).display ∧
        tailDisplay (pressDigit k s).expr ≠ [] := by
  unfold pressDigit
  split
  · intro he; exact ⟨rfl, tailDisplay_ne_nil _ he⟩
  · intro he; exact ⟨rfl, tailDisplay_ne_nil _ he⟩

/-- A key press other than Evaluate preserves the round-trip invariant
"when `expr` is non-empty, `tailDisplay expr` equals `display` and is
non-empty", provided an operator key is a single character (as all the
alphabet's operator keys are). -/
theorem press_keeps_roundtrip (k : Str) (s : CalcState)
    (hk : k ≠ ['=']) (hlen : isOp k = true → k.length = 1)
    (hI : s.expr ≠ [] → tailDisplay s.expr = s.display ∧ tailDisplay s.expr ≠ []) :
    (press k s).expr ≠ [] →
      tailDisplay (press k s).expr = (press k s).display ∧
        tailDisplay (press k s).expr ≠ [] := by
  unfold press
  split
  · intro he; exact absurd rfl he
  · split
    · exact pressDel_roundtrip s
    · split
      · exact pressDot_roundtrip s hI
      · split
        · exact pressPct_roundtrip s hI
        · split
          · next hisop =>
            obtain ⟨c, rfl⟩ : ∃ c, k = [c] := by
              cases k with
              | nil => exact absurd (hlen hisop) (by simp)
              | cons c t =>
                cases t with
                | nil => exact ⟨c, rfl⟩
                | cons d u => exact absurd (hlen hisop) (by simp)
            exact pressOp_roundtrip c s hisop hI
          · split
            · exact pressDigit_roundtrip k s
            · exact hI

/-- **C6, amended.**  For every state reachable by a finite sequence of
presses of alphabet keys with no Evaluate among them (`C` may occur; after
it `expr` is empty), if `expr` is non-empty then `tailDisplay expr` is
non-empty and equals `display`.  (The claim as stated fails when `expr` is
empty — already at the initial state, and after deleting the last
character — and immediately after an Evaluate producing a negative
result.) -/
theorem c6_amended (ks : List Str) (h : ∀ k ∈ ks, k ∈ keyAlphabet ∧ k ≠ ['=']) :
    (pressSeq ks initState).expr ≠ [] →
      tailDisplay (pressSeq ks initState).expr = (pressSeq ks initState).display ∧
        tailDisplay (pressSeq ks initState).expr ≠ [] := by
  have hA : ∀ k ∈ keyAlphabet, isOp k = true → k.length = 1 := by decide
  have main : ∀ (l : List Str) (s : CalcState), (∀ k ∈ l, k ∈ keyAlphabet ∧ k ≠ ['=']) →
      (s.expr ≠ [] → tailDisplay s.expr = s.display ∧ tailDisplay s.expr ≠ []) →
      (pressSeq l s).expr ≠ [] →
        tailDisplay (pressSeq l s).expr = (pressSeq l s).display ∧
          tailDisplay (pressSeq l s).expr ≠ [] := by
    intro l
    induction l with
    | nil => intro s _ hI; exact hI
    | cons k t ih =>
      intro s hl hI
      exact ih (press k s) (fun x hx => hl x (List.mem_cons_of_mem _ hx))
        (press_keeps_roundtrip k s (hl k (by simp)).2
          (hA k (hl k (by simp)).1) hI)
  exact main ks initState h (fun he => absurd rfl he)

/-- Witness for `c6_amended` on the one-key sequence `7`. -/
theorem c6_amended_witness :
    tailDisplay (pressSeq [['7']] initState).expr = (pressSeq [['7']] initState).display ∧
      tailDisplay (pressSeq [['7']] initState).expr ≠ [] :=
  c6_amended [['7']] (by decide) (by decide)

/-! ## Operator replacement idempotence

Pressing the same operator key twice equals pressing it once, because the
operator branch strips a pending trailing operator before appending.  The
proof needs one invariant of reachable buffers: `expr` never contains two
adjacent dots (otherwise the trailing-dot strip of the second press could
expose a second dot and strip it too). -/

/-- Adjacent-characters relation: not both dots. -/
def NotDD (a b : Char) : Prop := ¬(a = '.' ∧ b = '.')

instance : DecidableRel NotDD := fun _ _ => instDecidableNot

/-- No two adjacent dots anywhere in the string. -/
def NoDD (l : Str) : Prop := List.Chain' NotDD l

/-- A two-character string with at most one dot has no adjacent dots. -/
theorem noDD_pair (a b : Char) (h : ¬(a = '.' ∧ b = '.')) : NoDD [a, b] :=
  List.chain'_cons.mpr ⟨h, List.chain'_singleton b⟩

theorem noDD_dropLast (l : Str) (h : NoDD l) : NoDD l.dropLast := by
  rcases eq_or_ne l [] with rfl | hne
  · exact List.chain'_nil
  · rw [← List.dropLast_append_getLast hne] at h
    exact (List.chain'_append.mp h).1

theorem noDD_append (l t : Str) (hl : NoDD l) (ht : NoDD t)
    (hj : ∀ a ∈ l.getLast?, ∀ b ∈ t.head?, NotDD a b) : NoDD (l ++ t) :=
  List.chain'_append.mpr ⟨hl, ht, hj⟩

/-- A string without any dot has no adjacent dots. -/
theorem noDD_of_not_dot (l : Str) (h : ∀ c ∈ l, c ≠ '.') : NoDD l := by
  induction l with
  | nil => exact List.chain'_nil
  | cons a t ih =>
    cases t with
    | nil => exact List.chain'_singleton a
    | cons b u =>
      refine List.chain'_cons.mpr ⟨?_, ih (fun c hc => h c (List.mem_cons_of_mem _ hc))⟩
      exact fun hab => h a (by simp) hab.1

/-- Appending one non-dot character preserves the invariant. -/
theorem noDD_concat_not_dot (l : Str) (c : Char) (h : NoDD l) (hc : c ≠ '.') :
    NoDD (l ++ [c]) := by
  refine noDD_append _ _ h (List.chain'_singleton c) ?_
  intro a _ b hb
  simp only [List.head?_cons, Option.mem_def, Option.some.injEq] at hb
  subst hb
  exact fun hab => hc hab.2

/-- Appending a dot after a non-dot final character preserves the
invariant. -/
theorem noDD_concat_dot (l : Str) (h : NoDD l) (hl : l.getLast? ≠ some '.') :
    NoDD (l ++ ['.']) := by
  refine noDD_append _ _ h (List.chain'_singleton _) ?_
  intro a ha b hb
  simp only [List.head?_cons, Option.mem_def, Option.some.injEq] at hb
  simp only [Option.mem_def] at ha
  subst hb
  intro hab
  rw [hab.1] at ha
  exact hl ha

/-- `Nat.digitChar` of a value below ten is a digit character. -/
theorem digitChar_isDigit (n : ℕ) (h : n < 10) : (Nat.digitChar n).isDigit = true := by
  interval_cases n <;> decide

/-- With sufficient fuel, `natDigsAux` produces digit characters only. -/
theorem natDigsAux_digits (fuel : ℕ) : ∀ n ≤ fuel, ∀ c ∈ natDigsAux fuel n, c.isDigit = true := by
  induction fuel with
  | zero =>
    intro n hn c hc
    have h0 : n = 0 := Nat.le_zero.mp hn
    subst h0
    simp only [natDigsAux, List.mem_singleton] at hc
    subst hc
    decide
  | succ f ih =>
    intro n hn c hc
    unfold natDigsAux at hc
    split at hc
    · simp only [List.mem_singleton] at hc
      subst hc
      exact digitChar_isDigit _ (by assumption)
    · next hge =>
      simp only [List.mem_append, List.mem_singleton] at hc
      rcases hc with hc | hc
      · have hlt : n / 10 < n := Nat.div_lt_self (by omega) (by norm_num)
        exact ih (n / 10) (by omega) c hc
      · subst hc
        exact digitChar_isDigit _ (Nat.mod_lt _ (by norm_num))

/-- `natDigs` produces digit characters only. -/
theorem natDigs_digits (n : ℕ) : ∀ c ∈ natDigs n, c.isDigit = true :=
  natDigsAux_digits n n (le_refl n)

/-- Characters survive `dropTrailZeros`. -/
theorem dropTrailZeros_subset (l : Str) : ∀ c ∈ dropTrailZeros l, c ∈ l := by
  intro c hc
  unfold dropTrailZeros at hc
  rw [List.mem_reverse] at hc
  have := (List.dropWhile_sublist _).subset hc
  exact List.mem_reverse.mp this

/-- A digit character is not a dot. -/
theorem isDigit_ne_dot (c : Char) (h : c.isDigit = true) : c ≠ '.' := by
  intro hc
  rw [hc] at h
  exact absurd h (by decide)

/-- The decimal rendering never contains two adjacent dots: it is a sign,
an all-digit integer part, and optionally one dot followed by digits. -/
theorem numToStr_noDD (q : JQ) : NoDD (numToStr q) := by
  unfold numToStr
  have hfr : ∀ c ∈ dropTrailZeros
      (List.replicate (12 - (natDigs (((q.abs.mul (JQ.ofInt (10 ^ 12))).floorInt).toNat % 10 ^ 12)).length) '0' ++
        natDigs (((q.abs.mul (JQ.ofInt (10 ^ 12))).floorInt).toNat % 10 ^ 12)), c.isDigit = true := by
    intro c hc
    have := dropTrailZeros_subset _ c hc
    rcases List.mem_append.mp this with hm | hm
    · rw [List.eq_of_mem_replicate hm]; decide
    · exact natDigs_digits _ c hm
  have hhead : ∀ c ∈ (if q.n < 0 then ['-'] else []) ++
      natDigs (((q.abs.mul (JQ.ofInt (10 ^ 12))).floorInt).toNat / 10 ^ 12), c ≠ '.' := by
    intro c hc
    rcases List.mem_append.mp hc with hm | hm
    · split at hm
      · simp only [List.mem_singleton] at hm
        subst hm; decide
      · exact absurd hm (List.not_mem_nil c)
    · exact isDigit_ne_dot c (natDigs_digits _ c hm)
  refine noDD_append _ _ (noDD_of_not_dot _ hhead) ?_ ?_
  · split
    · exact List.chain'_nil
    · next hne =>
      cases hfs : dropTrailZeros _ with
      | nil => exact absurd hfs hne
      | cons f fr =>
        refine List.chain'_cons.mpr ⟨?_, ?_⟩
        · intro hab
          have hf : f ∈ f :: fr := by simp
          rw [← hfs] at hf
          exact isDigit_ne_dot f (hfr f hf) hab.2
        · refine noDD_of_not_dot _ ?_
          intro c hc
          rw [← hfs] at hc
          exact isDigit_ne_dot c (hfr c hc)
  · intro a ha b hb
    split at hb
    · simp at hb
    · simp only [List.head?_cons, Option.mem_def, Option.some.injEq] at hb
      subst hb
      intro hab
      obtain ⟨hne, heq⟩ := List.mem_getLast?_eq_getLast ha
      have hm : a ∈ _ := heq ▸ List.getLast_mem hne
      exact hhead a hm hab.1

/-- `computeStr` results never contain adjacent dots. -/
theorem computeStr_noDD (s : Str) : NoDD (computeStr s) := by
  by_cases hs : s = []
  · subst hs
    show NoDD ['0']
    exact List.chain'_singleton _
  · unfold computeStr compute
    rw [if_neg hs]
    cases h : evalRPN (toRPN (tokenize s)) with
    | none => exact noDD_of_not_dot ['E', 'r', 'r'] (by decide)
    | some q => exact numToStr_noDD _

/-- The delete branch preserves the no-adjacent-dots invariant. -/
theorem pressDel_noDD (s : CalcState) (h : NoDD s.expr) : NoDD (pressDel s).expr := by
  unfold pressDel
  split
  · exact noDD_dropLast _ h
  · exact h

/-- The evaluate branch preserves the no-adjacent-dots invariant. -/
theorem pressEval_noDD (s : CalcState) : NoDD (pressEval s).expr := by
  unfold pressEval
  split <;> split
  · exact List.chain'_nil
  · exact computeStr_noDD _
  · exact List.chain'_nil
  · exact computeStr_noDD _

/-- A digit-final test implies the final character is not a dot. -/
theorem lastIsDigit_ne_dot (e : Str) (h : lastIsDigit e = true) :
    e.getLast? ≠ some '.' := by
  unfold lastIsDigit at h
  intro hc
  rw [hc] at h
  exact absurd h (by decide)

/-- The decimal-point branch preserves the no-adjacent-dots invariant. -/
theorem pressDot_noDD (s : CalcState) (h : NoDD s.expr) : NoDD (pressDot s).expr := by
  unfold pressDot
  split
  · exact h
  · split
    · next hcond => exact noDD_concat_dot _ h (lastIsDigit_ne_dot _ hcond.2)
    · refine noDD_append _ _ h (noDD_pair '0' '.' (by decide)) ?_
      intro a _ b hb
      simp only [List.head?_cons, Option.mem_def, Option.some.injEq] at hb
      subst hb
      exact fun hab => absurd hab.2 (by decide)

/-- The percent branch preserves the no-adjacent-dots invariant. -/
theorem pressPct_noDD (s : CalcState) (h : NoDD s.expr) : NoDD (pressPct s).expr := by
  unfold pressPct
  split
  · exact noDD_concat_not_dot _ _ h (by decide)
  · exact h

/-- Stripping for an operator key preserves the invariant. -/
theorem stripForOp_noDD (e : Str) (h : NoDD e) : NoDD (stripForOp e) := by
  unfold stripForOp
  split <;> split
  · exact noDD_dropLast _ (noDD_dropLast _ h)
  · exact noDD_dropLast _ h
  · exact noDD_dropLast _ h
  · exact h

/-- The operator branch preserves the invariant for dot-free keys. -/
theorem pressOp_noDD (k : Str) (s : CalcState) (h : NoDD s.expr)
    (hk : ∀ c ∈ k, c ≠ '.') : NoDD (pressOp k s).expr := by
  unfold pressOp
  split
  · split
    · exact noDD_pair '0' '−' (by decide)
    · exact h
  · refine noDD_append _ _ (stripForOp_noDD _ h) (noDD_of_not_dot _ hk) ?_
    intro a _ b hb
    exact fun hab => hk b (List.mem_of_mem_head? hb) hab.2

/-- The digit branch preserves the invariant for dot-free keys. -/
theorem pressDigit_noDD (k : Str) (s : CalcState) (h : NoDD s.expr)
    (hk : ∀ c ∈ k, c ≠ '.') : NoDD (pressDigit k s).expr := by
  unfold pressDigit
  split
  · refine noDD_append _ _ (noDD_dropLast _ h) (noDD_of_not_dot _ hk) ?_
    intro a _ b hb
    exact fun hab => hk b (List.mem_of_mem_head? hb) hab.2
  · refine noDD_append _ _ h (noDD_of_not_dot _ hk) ?_
    intro a _ b hb
    exact fun hab => hk b (List.mem_of_mem_head? hb) hab.2

/-- Every alphabet key press keeps `expr` free of adjacent dots. -/
theorem press_keeps_noDD (k : Str) (s : CalcState) (hk : k ∈ keyAlphabet)
    (h : NoDD s.expr) : NoDD (press k s).expr := by
  have hop : isOp k = true → ∀ c ∈ k, c ≠ '.' :=
    (by decide : ∀ x ∈ keyAlphabet, isOp x = true → ∀ c ∈ x, c ≠ '.') k hk
  have hdg : (strLe ['0'] k = true ∧ strLe k ['9'] = true) → ∀ c ∈ k, c ≠ '.' :=
    (by decide :
      ∀ x ∈ keyAlphabet, (strLe ['0'] x = true ∧ strLe x ['9'] = true) → ∀ c ∈ x, c ≠ '.') k hk
  unfold press
  split
  · exact List.chain'_nil
  · split
    · exact pressDel_noDD s h
    · split
      · exact pressEval_noDD s
      · split
        · exact pressDot_noDD s h
        · split
          · exact pressPct_noDD s h
          · split
            · next hisop => exact pressOp_noDD k s h (hop hisop)
            · split
              · next hd2 => exact pressDigit_noDD k s h (hdg hd2)
              · exact h

/-- In a string without adjacent dots that ends in a dot, the preceding
character is not a dot. -/
theorem noDD_dropLast_not_dot (l : Str) (h : NoDD l) (hd : l.getLast? = some '.') :
    l.dropLast.getLast? ≠ some '.' := by
  intro hd2
  have hsplit : l.dropLast ++ ['.'] = l :=
    List.dropLast_append_getLast? '.' (by rw [hd]; rfl)
  rw [← hsplit] at h
  have hj := (List.chain'_append.mp h).2.2
  exact hj '.' (by rw [hd2]; rfl) '.' (by simp) ⟨rfl, rfl⟩

/-- Under the invariant, the strip result never ends in a dot: a single
strip removes the only possible trailing dot, and a second trailing dot
would mean two adjacent dots. -/
theorem stripForOp_not_dot (e : Str) (h : NoDD e) :
    (stripForOp e).getLast? ≠ some '.' := by
  unfold stripForOp
  split <;> split
  · next hdot => exact noDD_dropLast_not_dot _ (noDD_dropLast _ h) hdot
  · next hdot => exact hdot
  · next hdot => exact noDD_dropLast_not_dot _ h hdot
  · next hdot => exact hdot

/-- Appending an operator character to a string not ending in a dot and
then stripping for the next operator returns the original string. -/
theorem stripForOp_concat_op (E : Str) (c : Char) (hc : isOpCh c = true)
    (hnd : E.getLast? ≠ some '.') : stripForOp (E ++ [c]) = E := by
  unfold stripForOp
  have h1 : lastIsOp (E ++ [c]) = true := by
    unfold lastIsOp
    rw [List.getLast?_concat]
    exact hc
  simp only [h1, if_true, List.dropLast_concat]
  exact if_neg hnd

/-- `press` on the `＋` key is exactly the operator branch. -/
theorem press_plus_eq (t : CalcState) : press ['＋'] t = pressOp ['＋'] t := rfl

/-- On a non-empty dot-consistent buffer, pressing `＋` twice equals
pressing it once. -/
theorem plus_idem (s : CalcState) (hdd : NoDD s.expr) (he : s.expr ≠ []) :
    press ['＋'] (press ['＋'] s) = press ['＋'] s := by
  simp only [press_plus_eq]
  have h1 : pressOp ['＋'] s = ⟨stripForOp s.expr ++ ['＋'], ['＋']⟩ := by
    unfold pressOp
    rw [if_neg he]
  rw [h1]
  have h2 : (⟨stripForOp s.expr ++ ['＋'], ['＋']⟩ : CalcState).expr ≠ [] :=
    append_ne_nil_right _ _ (by simp)
  unfold pressOp
  rw [if_neg h2]
  rw [stripForOp_concat_op _ '＋' (by decide) (stripForOp_not_dot _ hdd)]

/-- **C8.**  For every state reachable by alphabet-key presses whose
expression buffer is non-empty, pressing `＋` twice in a row leaves
`(expr, display)` exactly as pressing it once: the newest operator key
replaces the pending trailing operator. -/
theorem c8_plus_press_idempotent (ks : List Str) (h : ∀ k ∈ ks, k ∈ keyAlphabet)
    (he : (pressSeq ks initState).expr ≠ []) :
    press ['＋'] (press ['＋'] (pressSeq ks initState)) =
      press ['＋'] (pressSeq ks initState) := by
  have main : ∀ (l : List Str) (s : CalcState), (∀ k ∈ l, k ∈ keyAlphabet) →
      NoDD s.expr → NoDD (pressSeq l s).expr := by
    intro l
    induction l with
    | nil => intro s _ hs; exact hs
    | cons k t ih =>
      intro s hl hs
      exact ih (press k s) (fun x hx => hl x (List.mem_cons_of_mem _ hx))
        (press_keeps_noDD k s (hl k (by simp)) hs)
  exact plus_idem _ (main ks initState h List.chain'_nil) he

/-- Witness for `c8_plus_press_idempotent` after pressing `5`. -/
theorem c8_plus_press_idempotent_witness :
    press ['＋'] (press ['＋'] (pressSeq [['5']] initState)) =
      press ['＋'] (pressSeq [['5']] initState) :=
  c8_plus_press_idempotent [['5']] (by decide) (by decide)

/-! ## The shape of reachable expression buffers

To settle the amended form of the buffer invariant we characterise the
strings `expr` can hold (under non-Evaluate alphabet keys) by a
deterministic automaton over characters, and relate the automaton's state
to the tokens `tokenize` produces. -/

/-- Character-automaton states for reachable buffers: `S0` the empty
buffer, `DD` inside an all-digit operand, `PP` right after the operand's
decimal point, `FF` inside an operand after its decimal point, `OO` after
a binary operator, `CC` after a percent sign. -/
inductive DSt where
  | S0
  | DD
  | PP
  | FF
  | OO
  | CC
deriving DecidableEq

/-- One character step of the buffer automaton. -/
def dstep (st : DSt) (c : Char) : Option DSt :=
  match st with
  | DSt.S0 => if c.isDigit then some DSt.DD else none
  | DSt.DD =>
    if c.isDigit then some DSt.DD
    else if c = '.' then some DSt.PP
    else if isOpCh c then some DSt.OO
    else if c = '%' then some DSt.CC
    else none
  | DSt.PP => if c.isDigit then some DSt.FF else none
  | DSt.FF =>
    if c.isDigit then some DSt.FF
    else if isOpCh c then some DSt.OO
    else if c = '%' then some DSt.CC
    else none
  | DSt.OO => if c.isDigit then some DSt.DD else none
  | DSt.CC =>
    if c.isDigit then some DSt.DD
    else if isOpCh c then some DSt.OO
    else none

/-- Run the buffer automaton from the empty-buffer state. -/
def runDFA (l : Str) : Option DSt :=
  l.foldl (fun a c => a.bind (fun s => dstep s c)) (some DSt.S0)

theorem runDFA_concat (l : Str) (c : Char) :
    runDFA (l ++ [c]) = (runDFA l).bind (fun s => dstep s c) := by
  unfold runDFA
  rw [List.foldl_append]
  rfl

theorem runDFA_dropLast_isSome (l : Str) (h : (runDFA l).isSome = true) :
    (runDFA l.dropLast).isSome = true := by
  rcases eq_or_ne l [] with rfl | hne
  · exact h
  · rw [← List.dropLast_append_getLast hne, runDFA_concat] at h
    cases hr : runDFA l.dropLast with
    | none => rw [hr] at h; exact absurd h (by simp)
    | some s => simp

theorem runTok_concat (r : Bool) (ts : List Str) (t : Str) :
    runTok r (ts ++ [t]) = (runTok r ts).bind (fun s => tstep r s (tokC t)) := by
  unfold runTok
  rw [List.foldl_append]
  rfl

/-- The tokenizer loop, split into the tokens already emitted and the
pending literal buffer (the final flush excluded). -/
def scanPair : Str → Str → List Str × Str
  | [], buf => ([], buf)
  | c :: rest, buf =>
    if isRunCh c then scanPair rest (buf ++ [c])
    else if isOpCh c || c = '%' then
      ((if buf = [] then [] else [buf]) ++ [c] :: (scanPair rest []).1,
        (scanPair rest []).2)
    else scanPair rest buf

/-- The end-of-input flush. -/
def flushBuf (b : Str) : List Str := if b = [] then [] else [b]

theorem tokenizeAux_eq_scanPair (l : Str) :
    ∀ buf, tokenizeAux l buf = (scanPair l buf).1 ++ flushBuf (scanPair l buf).2 := by
  induction l with
  | nil => intro buf; simp [tokenizeAux, scanPair, flushBuf]
  | cons c rest ih =>
    intro buf
    unfold tokenizeAux scanPair
    split
    · exact ih _
    · split
      · rw [ih []]
        simp
      · exact ih buf

/-- `tokenize` as emitted tokens plus the final flush. -/
theorem tokenize_eq_scan (l : Str) :
    tokenize l = (scanPair l []).1 ++ flushBuf (scanPair l []).2 :=
  tokenizeAux_eq_scanPair l []

theorem scanPair_concat_run (c : Char) (hc : isRunCh c = true) (l : Str) :
    ∀ buf, scanPair (l ++ [c]) buf = ((scanPair l buf).1, (scanPair l buf).2 ++ [c]) := by
  induction l with
  | nil =>
    intro buf
    simp [scanPair, hc]
  | cons d rest ih =>
    intro buf
    simp only [List.cons_append, scanPair, List.append_eq]
    split
    · exact ih _
    · split
      · rw [ih []]
      · exact ih buf

theorem scanPair_concat_op (c : Char) (hc : isRunCh c = false)
    (hc2 : (isOpCh c || c = '%') = true) (l : Str) :
    ∀ buf, scanPair (l ++ [c]) buf =
      ((scanPair l buf).1 ++ flushBuf (scanPair l buf).2 ++ [[c]], []) := by
  induction l with
  | nil =>
    intro buf
    simp [scanPair, hc, hc2, flushBuf]
  | cons d rest ih =>
    intro buf
    simp only [List.cons_append, scanPair, List.append_eq]
    split
    · exact ih _
    · split
      · rw [ih []]
        simp [List.append_assoc]
      · exact ih buf

/-- Emitted tokens of a buffer. -/
def emitT (e : Str) : List Str := (scanPair e []).1

/-- Pending literal of a buffer. -/
def bufT (e : Str) : Str := (scanPair e []).2

theorem emitT_concat_run (l : Str) (c : Char) (hc : isRunCh c = true) :
    emitT (l ++ [c]) = emitT l := by
  unfold emitT
  rw [scanPair_concat_run c hc]

theorem bufT_concat_run (l : Str) (c : Char) (hc : isRunCh c = true) :
    bufT (l ++ [c]) = bufT l ++ [c] := by
  unfold bufT
  rw [scanPair_concat_run c hc]

theorem emitT_concat_op (l : Str) (c : Char) (hc : isRunCh c = false)
    (hc2 : (isOpCh c || c = '%') = true) :
    emitT (l ++ [c]) = emitT l ++ flushBuf (bufT l) ++ [[c]] := by
  unfold emitT bufT
  rw [scanPair_concat_op c hc hc2]

theorem bufT_concat_op (l : Str) (c : Char) (hc : isRunCh c = false)
    (hc2 : (isOpCh c || c = '%') = true) : bufT (l ++ [c]) = [] := by
  unfold bufT
  rw [scanPair_concat_op c hc hc2]

/-- The four operator glyphs are the only characters `isOp` accepts as
single characters. -/
theorem isOpCh_mem (c : Char) (h : isOpCh c = true) :
    c = '＋' ∨ c = '−' ∨ c = '×' ∨ c = '÷' := by
  have heval : isOpCh c =
      (c == '＋' || (c == '−' || (c == '×' || c == '÷'))) := by
    simp [isOpCh, isOp, strIncludes, List.isPrefixOf]
  rw [heval] at h
  simpa using h

theorem isOpCh_not_run (c : Char) (h : isOpCh c = true) : isRunCh c = false := by
  rcases isOpCh_mem c h with rfl | rfl | rfl | rfl <;> decide

theorem isOpCh_not_digit (c : Char) (h : isOpCh c = true) : c.isDigit = false := by
  rcases isOpCh_mem c h with rfl | rfl | rfl | rfl <;> decide

theorem isOpCh_ne_dot (c : Char) (h : isOpCh c = true) : c ≠ '.' := by
  rcases isOpCh_mem c h with rfl | rfl | rfl | rfl <;> decide

theorem isRunCh_of_digit (c : Char) (h : c.isDigit = true) : isRunCh c = true := by
  simp [isRunCh, h]

/-- A non-empty all-digit literal parses as a number. -/
theorem jsNum_isSome_digits (l : Str) (hne : l ≠ [])
    (hd : ∀ c ∈ l, c.isDigit = true) : (jsNum l).isSome = true := by
  unfold jsNum
  rw [if_pos]
  · simp
  · refine ⟨?_, ?_, ?_⟩
    · rw [List.all_eq_true]
      intro c hc
      exact isRunCh_of_digit c (hd c hc)
    · have h0 : l.count '.' = 0 := by
        rw [List.count_eq_zero]
        intro hm
        exact isDigit_ne_dot '.' (hd '.' hm) rfl
      omega
    · rw [List.any_eq_true]
      obtain ⟨c, hc⟩ := List.exists_mem_of_ne_nil l hne
      exact ⟨c, hc, hd c hc⟩

/-- A literal of digits with a single dot parses as a number. -/
theorem jsNum_isSome_dotted (b1 b2 : Str) (hne : b1 ≠ [])
    (hd1 : ∀ c ∈ b1, c.isDigit = true) (hd2 : ∀ c ∈ b2, c.isDigit = true) :
    (jsNum (b1 ++ '.' :: b2)).isSome = true := by
  unfold jsNum
  rw [if_pos]
  · simp
  · refine ⟨?_, ?_, ?_⟩
    · rw [List.all_eq_true]
      intro c hc
      rcases List.mem_append.mp hc with hm | hm
      · exact isRunCh_of_digit c (hd1 c hm)
      · rcases List.mem_cons.mp hm with rfl | hm2
        · decide
        · exact isRunCh_of_digit c (hd2 c hm2)
    · have h1 : b1.count '.' = 0 := by
        rw [List.count_eq_zero]
        intro hm
        exact isDigit_ne_dot '.' (hd1 '.' hm) rfl
      have h2 : b2.count '.' = 0 := by
        rw [List.count_eq_zero]
        intro hm
        exact isDigit_ne_dot '.' (hd2 '.' hm) rfl
      simp [List.count_append, List.count_cons, h1, h2]
    · rw [List.any_eq_true]
      obtain ⟨c, hc⟩ := List.exists_mem_of_ne_nil b1 hne
      exact ⟨c, List.mem_append_left _ hc, hd1 c hc⟩

theorem tokC_num (l : Str) (h : (jsNum l).isSome = true) : tokC l = TokC.num := by
  unfold tokC
  rw [if_pos h]

theorem tokC_op_single (c : Char) (h : isOpCh c = true) : tokC [c] = TokC.op := by
  rcases isOpCh_mem c h with rfl | rfl | rfl | rfl <;> decide

/-- The boundary condition before the pending literal: nothing, or an
operator or percent character. -/
def PBound (p : Str) : Prop :=
  p = [] ∨ ∃ cc, p.getLast? = some cc ∧ (isOpCh cc = true ∨ cc = '%')

/-- What each automaton state says about the buffer: how it decomposes
into emitted tokens plus the pending literal, the literal's shape, how far
the relaxed token grammar has run on the emitted tokens, and the final
character. -/
def StInv : DSt → Str → Prop
  | DSt.S0, e => e = []
  | DSt.DD, e =>
      (∃ p, e = p ++ bufT e ∧ PBound p) ∧
      bufT e ≠ [] ∧ (∀ c ∈ bufT e, c.isDigit = true) ∧
      (∃ t0, runTok true (emitT e) = some t0 ∧ tstep true t0 TokC.num = some TSt.TN) ∧
      (∃ d, e.getLast? = some d ∧ d.isDigit = true)
  | DSt.PP, e =>
      (∃ p, e = p ++ bufT e ∧ PBound p) ∧
      (∃ bd, bufT e = bd ++ ['.'] ∧ bd ≠ [] ∧ (∀ c ∈ bd, c.isDigit = true)) ∧
      (∃ t0, runTok true (emitT e) = some t0 ∧ tstep true t0 TokC.num = some TSt.TN) ∧
      e.getLast? = some '.'
  | DSt.FF, e =>
      (∃ p, e = p ++ bufT e ∧ PBound p) ∧
      (∃ b1 b2, bufT e = b1 ++ '.' :: b2 ∧ b1 ≠ [] ∧ b2 ≠ [] ∧
        (∀ c ∈ b1, c.isDigit = true) ∧ (∀ c ∈ b2, c.isDigit = true)) ∧
      (∃ t0, runTok true (emitT e) = some t0 ∧ tstep true t0 TokC.num = some TSt.TN) ∧
      (∃ d, e.getLast? = some d ∧ d.isDigit = true)
  | DSt.OO, e =>
      bufT e = [] ∧ runTok true (emitT e) = some TSt.TO ∧
      (∃ cc, e.getLast? = some cc ∧ isOpCh cc = true)
  | DSt.CC, e =>
      bufT e = [] ∧ runTok true (emitT e) = some TSt.TP ∧ e.getLast? = some '%'

theorem stinv_S0_digit (l : Str) (c : Char) (hc : c.isDigit = true)
    (hs : StInv DSt.S0 l) : StInv DSt.DD (l ++ [c]) := by
  have hl : l = [] := hs
  subst hl
  have hrun := isRunCh_of_digit c hc
  refine ⟨⟨[], ?_, Or.inl rfl⟩, ?_, ?_, ⟨TSt.T0, ?_, by decide⟩,
    ⟨c, List.getLast?_concat _, hc⟩⟩
  · simp [bufT, scanPair, hrun]
  · simp [bufT, scanPair, hrun]
  · intro x hx
    simp [bufT, scanPair, hrun] at hx
    subst hx
    exact hc
  · simp [emitT, scanPair, hrun, runTok]

theorem stinv_DD_digit (l : Str) (c : Char) (hc : c.isDigit = true)
    (hs : StInv DSt.DD l) : StInv DSt.DD (l ++ [c]) := by
  obtain ⟨⟨p, hp, hpb⟩, hbne, hbdig, ⟨t0, ht0, htn⟩, _⟩ := hs
  have hrun := isRunCh_of_digit c hc
  have hb := bufT_concat_run l c hrun
  have he := emitT_concat_run l c hrun
  refine ⟨⟨p, ?_, hpb⟩, ?_, ?_, ⟨t0, ?_, htn⟩, ⟨c, List.getLast?_concat _, hc⟩⟩
  · conv_lhs => rw [hp]
    rw [hb, List.append_assoc]
  · rw [hb]
    exact append_ne_nil_right _ _ (by simp)
  · intro x hx
    rw [hb] at hx
    rcases List.mem_append.mp hx with hm | hm
    · exact hbdig x hm
    · simp at hm
      subst hm
      exact hc
  · rw [he]
    exact ht0

theorem stinv_DD_dot (l : Str) (hs : StInv DSt.DD l) : StInv DSt.PP (l ++ ['.']) := by
  obtain ⟨⟨p, hp, hpb⟩, hbne, hbdig, ⟨t0, ht0, htn⟩, _⟩ := hs
  have hrun : isRunCh '.' = true := by decide
  have hb := bufT_concat_run l '.' hrun
  have he := emitT_concat_run l '.' hrun
  refine ⟨⟨p, ?_, hpb⟩, ⟨bufT l, hb, hbne, hbdig⟩, ⟨t0, ?_, htn⟩,
    List.getLast?_concat _⟩
  · conv_lhs => rw [hp]
    rw [hb, List.append_assoc]
  · rw [he]
    exact ht0

theorem stinv_DD_op (l : Str) (c : Char) (hc : isOpCh c = true)
    (hs : StInv DSt.DD l) : StInv DSt.OO (l ++ [c]) := by
  obtain ⟨_, hbne, hbdig, ⟨t0, ht0, htn⟩, _⟩ := hs
  have h1 := isOpCh_not_run c hc
  have h2 : (isOpCh c || c = '%') = true := by simp [hc]
  have hb := bufT_concat_op l c h1 h2
  have he := emitT_concat_op l c h1 h2
  have hflush : flushBuf (bufT l) = [bufT l] := by
    unfold flushBuf
    rw [if_neg hbne]
  have hrun1 : runTok true (emitT l ++ [bufT l]) = some TSt.TN := by
    rw [runTok_concat, ht0]
    simp only [Option.some_bind]
    rw [tokC_num _ (jsNum_isSome_digits _ hbne hbdig)]
    exact htn
  refine ⟨hb, ?_, ⟨c, List.getLast?_concat _, hc⟩⟩
  rw [he, hflush, runTok_concat, hrun1]
  simp only [Option.some_bind]
  rw [tokC_op_single c hc]
  decide

theorem stinv_DD_pct (l : Str) (hs : StInv DSt.DD l) : StInv DSt.CC (l ++ ['%']) := by
  obtain ⟨_, hbne, hbdig, ⟨t0, ht0, htn⟩, _⟩ := hs
  have h1 : isRunCh '%' = false := by decide
  have h2 : (isOpCh '%' || '%' = '%') = true := by decide
  have hb := bufT_concat_op l '%' h1 h2
  have he := emitT_concat_op l '%' h1 h2
  have hflush : flushBuf (bufT l) = [bufT l] := by
    unfold flushBuf
    rw [if_neg hbne]
  have hrun1 : runTok true (emitT l ++ [bufT l]) = some TSt.TN := by
    rw [runTok_concat, ht0]
    simp only [Option.some_bind]
    rw [tokC_num _ (jsNum_isSome_digits _ hbne hbdig)]
    exact htn
  refine ⟨hb, ?_, List.getLast?_concat _⟩
  rw [he, hflush, runTok_concat, hrun1]
  simp only [Option.some_bind]
  rw [show tokC ['%'] = TokC.pct from by decide]
  decide

theorem stinv_PP_digit (l : Str) (c : Char) (hc : c.isDigit = true)
    (hs : StInv DSt.PP l) : StInv DSt.FF (l ++ [c]) := by
  obtain ⟨⟨p, hp, hpb⟩, ⟨bd, hbd, hbdne, hbddig⟩, ⟨t0, ht0, htn⟩, _⟩ := hs
  have hrun := isRunCh_of_digit c hc
  have hb := bufT_concat_run l c hrun
  have he := emitT_concat_run l c hrun
  refine ⟨⟨p, ?_, hpb⟩, ⟨bd, [c], ?_, hbdne, by simp, hbddig, ?_⟩,
    ⟨t0, ?_, htn⟩, ⟨c, List.getLast?_concat _, hc⟩⟩
  · conv_lhs => rw [hp]
    rw [hb, List.append_assoc]
  · rw [hb, hbd]
    simp
  · intro x hx
    simp at hx
    subst hx
    exact hc
  · rw [he]
    exact ht0

theorem stinv_FF_digit (l : Str) (c : Char) (hc : c.isDigit = true)
    (hs : StInv DSt.FF l) : StInv DSt.FF (l ++ [c]) := by
  obtain ⟨⟨p, hp, hpb⟩, ⟨b1, b2, hbd, h1ne, h2ne, hd1, hd2⟩, ⟨t0, ht0, htn⟩, _⟩ := hs
  have hrun := isRunCh_of_digit c hc
  have hb := bufT_concat_run l c hrun
  have he := emitT_concat_run l c hrun
  refine ⟨⟨p, ?_, hpb⟩, ⟨b1, b2 ++ [c], ?_, h1ne, by simp, hd1, ?_⟩,
    ⟨t0, ?_, htn⟩, ⟨c, List.getLast?_concat _, hc⟩⟩
  · conv_lhs => rw [hp]
    rw [hb, List.append_assoc]
  · rw [hb, hbd]
    simp
  · intro x hx
    rcases List.mem_append.mp hx with hm | hm
    · exact hd2 x hm
    · simp at hm
      subst hm
      exact hc
  · rw [he]
    exact ht0

theorem stinv_FF_op (l : Str) (c : Char) (hc : isOpCh c = true)
    (hs : StInv DSt.FF l) : StInv DSt.OO (l ++ [c]) := by
  obtain ⟨_, ⟨b1, b2, hbd, h1ne, _, hd1, hd2⟩, ⟨t0, ht0, htn⟩, _⟩ := hs
  have h1 := isOpCh_not_run c hc
  have h2 : (isOpCh c || c = '%') = true := by simp [hc]
  have hb := bufT_concat_op l c h1 h2
  have he := emitT_concat_op l c h1 h2
  have hbne : bufT l ≠ [] := by
    rw [hbd]
    exact append_ne_nil_right _ _ (by simp)
  have hflush : flushBuf (bufT l) = [bufT l] := by
    unfold flushBuf
    rw [if_neg hbne]
  have hrun1 : runTok true (emitT l ++ [bufT l]) = some TSt.TN := by
    rw [runTok_concat, ht0]
    simp only [Option.some_bind]
    rw [show tokC (bufT l) = TokC.num from by
      rw [hbd]; exact tokC_num _ (jsNum_isSome_dotted b1 b2 h1ne hd1 hd2)]
    exact htn
  refine ⟨hb, ?_, ⟨c, List.getLast?_concat _, hc⟩⟩
  rw [he, hflush, runTok_concat, hrun1]
  simp only [Option.some_bind]
  rw [tokC_op_single c hc]
  decide

theorem stinv_FF_pct (l : Str) (hs : StInv DSt.FF l) : StInv DSt.CC (l ++ ['%']) := by
  obtain ⟨_, ⟨b1, b2, hbd, h1ne, _, hd1, hd2⟩, ⟨t0, ht0, htn⟩, _⟩ := hs
  have h1 : isRunCh '%' = false := by decide
  have h2 : (isOpCh '%' || '%' = '%') = true := by decide
  have hb := bufT_concat_op l '%' h1 h2
  have he := emitT_concat_op l '%' h1 h2
  have hbne : bufT l ≠ [] := by
    rw [hbd]
    exact append_ne_nil_right _ _ (by simp)
  have hflush : flushBuf (bufT l) = [bufT l] := by
    unfold flushBuf
    rw [if_neg hbne]
  have hrun1 : runTok true (emitT l ++ [bufT l]) = some TSt.TN := by
    rw [runTok_concat, ht0]
    simp only [Option.some_bind]
    rw [show tokC (bufT l) = TokC.num from by
      rw [hbd]; exact tokC_num _ (jsNum_isSome_dotted b1 b2 h1ne hd1 hd2)]
    exact htn
  refine ⟨hb, ?_, List.getLast?_concat _⟩
  rw [he, hflush, runTok_concat, hrun1]
  simp only [Option.some_bind]
  rw [show tokC ['%'] = TokC.pct from by decide]
  decide

theorem stinv_OO_digit (l : Str) (c : Char) (hc : c.isDigit = true)
    (hs : StInv DSt.OO l) : StInv DSt.DD (l ++ [c]) := by
  obtain ⟨hb0, hto, ⟨cc, hccl, hcc⟩⟩ := hs
  have hrun := isRunCh_of_digit c hc
  have hb := bufT_concat_run l c hrun
  have he := emitT_concat_run l c hrun
  refine ⟨⟨l, ?_, Or.inr ⟨cc, hccl, Or.inl hcc⟩⟩, ?_, ?_,
    ⟨TSt.TO, ?_, by decide⟩, ⟨c, List.getLast?_concat _, hc⟩⟩
  · rw [hb, hb0]
    simp
  · rw [hb, hb0]
    simp
  · intro x hx
    rw [hb, hb0] at hx
    simp at hx
    subst hx
    exact hc
  · rw [he]
    exact hto

theorem stinv_CC_digit (l : Str) (c : Char) (hc : c.isDigit = true)
    (hs : StInv DSt.CC l) : StInv DSt.DD (l ++ [c]) := by
  obtain ⟨hb0, htp, hccl⟩ := hs
  have hrun := isRunCh_of_digit c hc
  have hb := bufT_concat_run l c hrun
  have he := emitT_concat_run l c hrun
  refine ⟨⟨l, ?_, Or.inr ⟨'%', hccl, Or.inr rfl⟩⟩, ?_, ?_,
    ⟨TSt.TP, ?_, by decide⟩, ⟨c, List.getLast?_concat _, hc⟩⟩
  · rw [hb, hb0]
    simp
  · rw [hb, hb0]
    simp
  · intro x hx
    rw [hb, hb0] at hx
    simp at hx
    subst hx
    exact hc
  · rw [he]
    exact htp

theorem stinv_CC_op (l : Str) (c : Char) (hc : isOpCh c = true)
    (hs : StInv DSt.CC l) : StInv DSt.OO (l ++ [c]) := by
  obtain ⟨hb0, htp, _⟩ := hs
  have h1 := isOpCh_not_run c hc
  have h2 : (isOpCh c || c = '%') = true := by simp [hc]
  have hb := bufT_concat_op l c h1 h2
  have he := emitT_concat_op l c h1 h2
  refine ⟨hb, ?_, ⟨c, List.getLast?_concat _, hc⟩⟩
  rw [he, hb0]
  show runTok true (emitT l ++ flushBuf [] ++ [[c]]) = some TSt.TO
  rw [show flushBuf ([] : Str) = [] from rfl, List.append_nil, runTok_concat, htp]
  simp only [Option.some_bind]
  rw [tokC_op_single c hc]
  decide

/-- Every buffer accepted by the automaton satisfies its state's
description. -/
theorem runDFA_inv (e : Str) : ∀ st, runDFA e = some st → StInv st e := by
  induction e using List.reverseRecOn with
  | nil =>
    intro st h
    have h2 : DSt.S0 = st := by simpa [runDFA] using h
    subst h2
    rfl
  | append_singleton l c ih =>
    intro st h
    rw [runDFA_concat] at h
    cases hr : runDFA l with
    | none =>
      rw [hr] at h
      exact absurd h (by simp)
    | some s =>
      rw [hr] at h
      simp only [Option.some_bind] at h
      have hs := ih s hr
      cases s with
      | S0 =>
        simp only [dstep] at h
        split at h
        · cases h
          exact stinv_S0_digit l c (by assumption) hs
        · exact absurd h (by simp)
      | DD =>
        simp only [dstep] at h
        split at h
        · cases h
          exact stinv_DD_digit l c (by assumption) hs
        · split at h
          · next hdot =>
            cases h
            subst hdot
            exact stinv_DD_dot l hs
          · split at h
            · cases h
              exact stinv_DD_op l c (by assumption) hs
            · split at h
              · next hpct =>
                cases h
                subst hpct
                exact stinv_DD_pct l hs
              · exact absurd h (by simp)
      | PP =>
        simp only [dstep] at h
        split at h
        · cases h
          exact stinv_PP_digit l c (by assumption) hs
        · exact absurd h (by simp)
      | FF =>
        simp only [dstep] at h
        split at h
        · cases h
          exact stinv_FF_digit l c (by assumption) hs
        · split at h
          · cases h
            exact stinv_FF_op l c (by assumption) hs
          · split at h
            · next hpct =>
              cases h
              subst hpct
              exact stinv_FF_pct l hs
            · exact absurd h (by simp)
      | OO =>
        simp only [dstep] at h
        split at h
        · cases h
          exact stinv_OO_digit l c (by assumption) hs
        · exact absurd h (by simp)
      | CC =>
        simp only [dstep] at h
        split at h
        · cases h
          exact stinv_CC_digit l c (by assumption) hs
        · split at h
          · cases h
            exact stinv_CC_op l c (by assumption) hs
          · exact absurd h (by simp)

/-! ### Relating automaton states to the press guards -/

theorem takeWhile_append_all (p : Char → Bool) (l1 l2 : Str)
    (h : ∀ c ∈ l1, p c = true) : (l1 ++ l2).takeWhile p = l1 ++ l2.takeWhile p := by
  induction l1 with
  | nil => simp
  | cons a t ih =>
    rw [List.cons_append, List.takeWhile_cons, h a (by simp), if_pos rfl,
      ih (fun c hc => h c (List.mem_cons_of_mem _ hc))]
    rfl

theorem takeWhile_all (p : Char → Bool) (l : Str) (h : ∀ c ∈ l, p c = true) :
    l.takeWhile p = l := by
  have := takeWhile_append_all p l [] h
  simpa using this

/-- `numSuffixRev` on a dot-headed reversed string: the dot, then the
digits before it. -/
theorem numSuffixRev_dot_head (r3 : Str) :
    numSuffixRev ('.' :: r3) = '.' :: r3.takeWhile (fun c => c.isDigit) := by
  unfold numSuffixRev
  simp [List.takeWhile_cons]

/-- `numSuffixRev` on digits followed by a dot. -/
theorem numSuffixRev_digits_dot (dl rest : Str) (hdl : ∀ c ∈ dl, c.isDigit = true) :
    numSuffixRev (dl ++ '.' :: rest) = dl ++ '.' :: rest.takeWhile (fun c => c.isDigit) := by
  unfold numSuffixRev
  dsimp only
  have ht : (dl ++ '.' :: rest).takeWhile (fun c => c.isDigit) = dl := by
    rw [takeWhile_append_all _ dl _ hdl, List.takeWhile_cons]
    simp
  rw [ht]
  have hdrop : (dl ++ '.' :: rest).drop dl.length = '.' :: rest := List.drop_left _ _
  rw [hdrop]
  rfl

/-- `numSuffixRev` on digits followed by a non-dot non-digit stop
character. -/
theorem numSuffixRev_digits_stop (dl : Str) (x : Char) (rest : Str)
    (hdl : ∀ c ∈ dl, c.isDigit = true) (hx1 : x.isDigit = false) (hx2 : x ≠ '.') :
    numSuffixRev (dl ++ x :: rest) = dl := by
  unfold numSuffixRev
  dsimp only
  have ht : (dl ++ x :: rest).takeWhile (fun c => c.isDigit) = dl := by
    rw [takeWhile_append_all _ dl _ hdl, List.takeWhile_cons]
    simp [hx1]
  rw [ht]
  have hdrop : (dl ++ x :: rest).drop dl.length = x :: rest := List.drop_left _ _
  rw [hdrop]
  split
  · next r3 heq =>
    injection heq with h1 h2
    exact absurd h1 hx2
  · rfl

/-- `numSuffixRev` on an all-digit string. -/
theorem numSuffixRev_all_digits (dl : Str) (hdl : ∀ c ∈ dl, c.isDigit = true) :
    numSuffixRev dl = dl := by
  unfold numSuffixRev
  dsimp only
  rw [takeWhile_all _ dl hdl]
  have hdrop : dl.drop dl.length = [] := by simp
  rw [hdrop]

theorem contains_of_mem (l : Str) (a : Char) (h : a ∈ l) : l.contains a = true :=
  List.elem_eq_true_of_mem h

theorem mem_of_contains (l : Str) (a : Char) (h : l.contains a = true) : a ∈ l :=
  List.mem_of_elem_eq_true h

/-- In state `PP` the current number contains the decimal point. -/
theorem currentNumber_dot_PP (e : Str) (hs : StInv DSt.PP e) :
    (getCurrentNumber e).contains '.' = true := by
  obtain ⟨⟨p, hp, _⟩, ⟨bd, hbd, _, hbddig⟩, _, _⟩ := hs
  refine contains_of_mem _ _ ?_
  unfold getCurrentNumber
  rw [List.mem_reverse]
  rw [hp, hbd]
  have hrev : ((p ++ (bd ++ ['.'])).reverse) = '.' :: (bd.reverse ++ p.reverse) := by
    simp
  rw [hrev, numSuffixRev_dot_head]
  simp

/-- In state `FF` the current number contains the decimal point. -/
theorem currentNumber_dot_FF (e : Str) (hs : StInv DSt.FF e) :
    (getCurrentNumber e).contains '.' = true := by
  obtain ⟨⟨p, hp, _⟩, ⟨b1, b2, hbd, _, _, hd1, hd2⟩, _, _⟩ := hs
  refine contains_of_mem _ _ ?_
  unfold getCurrentNumber
  rw [List.mem_reverse]
  rw [hp, hbd]
  have hrev : ((p ++ (b1 ++ '.' :: b2)).reverse) =
      b2.reverse ++ '.' :: (b1.reverse ++ p.reverse) := by
    simp
  rw [hrev, numSuffixRev_digits_dot]
  · simp
  · intro c hc
    exact hd2 c (List.mem_reverse.mp hc)

theorem lastIsDigit_eq (e : Str) (c : Char) (h : e.getLast? = some c) :
    lastIsDigit e = c.isDigit := by
  unfold lastIsDigit
  rw [h]

theorem lastIsOp_eq (e : Str) (c : Char) (h : e.getLast? = some c) :
    lastIsOp e = isOpCh c := by
  unfold lastIsOp
  rw [h]

/-- In state `DD` the buffer is non-empty. -/
theorem expr_ne_nil_DD (e : Str) (hs : StInv DSt.DD e) : e ≠ [] := by
  obtain ⟨⟨p, hp, _⟩, hbne, _, _, _⟩ := hs
  rw [hp]
  exact append_ne_nil_right _ _ hbne

theorem digit_not_opCh (d : Char) (hd : d.isDigit = true) : isOpCh d = false := by
  cases hop : isOpCh d
  · rfl
  · have h2 := isOpCh_not_digit d hop
    rw [hd] at h2
    exact absurd h2 (by decide)

theorem dstep_digit_isSome (st : DSt) (d : Char) (hd : d.isDigit = true) :
    (dstep st d).isSome = true := by
  cases st <;> simp [dstep, hd]

theorem dstep_to_OO (s1 : DSt) (cc : Char) (h : dstep s1 cc = some DSt.OO) :
    s1 = DSt.DD ∨ s1 = DSt.FF ∨ s1 = DSt.CC := by
  cases s1 with
  | S0 => simp only [dstep] at h; split at h <;> simp_all
  | DD => exact Or.inl rfl
  | PP => simp only [dstep] at h; split at h <;> simp_all
  | FF => exact Or.inr (Or.inl rfl)
  | OO => simp only [dstep] at h; split at h <;> simp_all
  | CC => exact Or.inr (Or.inr rfl)

theorem dstep_to_PP (s2 : DSt) (c : Char) (h : dstep s2 c = some DSt.PP) :
    s2 = DSt.DD := by
  cases s2 with
  | DD => rfl
  | S0 => simp only [dstep] at h; split at h <;> simp_all
  | PP => simp only [dstep] at h; split at h <;> simp_all
  | FF =>
    simp only [dstep] at h
    split at h
    · simp_all
    · split at h
      · simp_all
      · split at h <;> simp_all
  | OO => simp only [dstep] at h; split at h <;> simp_all
  | CC => simp only [dstep] at h; split at h <;> simp_all

/-- The clear branch lands in the automaton's initial state. -/
theorem pressClear_dfa : (runDFA pressClear.expr).isSome = true := by decide

/-- The delete branch stays inside the automaton's language. -/
theorem pressDel_dfa (s : CalcState) (h : (runDFA s.expr).isSome = true) :
    (runDFA (pressDel s).expr).isSome = true := by
  unfold pressDel
  split
  · exact runDFA_dropLast_isSome _ h
  · exact h

/-- The decimal-point branch stays inside the automaton's language. -/
theorem pressDot_dfa (s : CalcState) (h : (runDFA s.expr).isSome = true) :
    (runDFA (pressDot s).expr).isSome = true := by
  obtain ⟨st, hst⟩ := Option.isSome_iff_exists.mp h
  have hs := runDFA_inv _ st hst
  unfold pressDot
  split
  · exact h
  · next hnc =>
    split
    · next hcond =>
      show (runDFA (s.expr ++ ['.'])).isSome = true
      rw [runDFA_concat, hst]
      simp only [Option.some_bind]
      cases st with
      | S0 => exact absurd hs hcond.1
      | DD => decide
      | PP =>
        have h1 := hcond.2
        rw [lastIsDigit_eq s.expr '.' hs.2.2.2] at h1
        exact absurd h1 (by decide)
      | FF => exact absurd (currentNumber_dot_FF _ hs) hnc
      | OO =>
        obtain ⟨_, _, ⟨cc, hl, hcc⟩⟩ := hs
        have h1 := hcond.2
        rw [lastIsDigit_eq s.expr cc hl, isOpCh_not_digit cc hcc] at h1
        exact absurd h1 (by decide)
      | CC =>
        have h1 := hcond.2
        rw [lastIsDigit_eq s.expr '%' hs.2.2] at h1
        exact absurd h1 (by decide)
    · next hcond =>
      show (runDFA (s.expr ++ ['0', '.'])).isSome = true
      have hsplit2 : s.expr ++ ['0', '.'] = (s.expr ++ ['0']) ++ ['.'] := by simp
      rw [hsplit2, runDFA_concat]
      cases st with
      | S0 =>
        have hl : s.expr = [] := hs
        rw [hl]
        decide
      | DD =>
        refine absurd ⟨expr_ne_nil_DD _ hs, ?_⟩ hcond
        obtain ⟨_, _, _, _, ⟨d, hl, hd⟩⟩ := hs
        rw [lastIsDigit_eq s.expr d hl]
        exact hd
      | PP => exact absurd (currentNumber_dot_PP _ hs) hnc
      | FF => exact absurd (currentNumber_dot_FF _ hs) hnc
      | OO =>
        rw [runDFA_concat, hst]
        simp only [Option.some_bind]
        decide
      | CC =>
        rw [runDFA_concat, hst]
        simp only [Option.some_bind]
        decide

/-- The percent branch stays inside the automaton's language. -/
theorem pressPct_dfa (s : CalcState) (h : (runDFA s.expr).isSome = true) :
    (runDFA (pressPct s).expr).isSome = true := by
  obtain ⟨st, hst⟩ := Option.isSome_iff_exists.mp h
  have hs := runDFA_inv _ st hst
  unfold pressPct
  split
  · next hld =>
    show (runDFA (s.expr ++ ['%'])).isSome = true
    rw [runDFA_concat, hst]
    simp only [Option.some_bind]
    cases st with
    | DD => decide
    | FF => decide
    | S0 =>
      have hl : s.expr = [] := hs
      rw [hl] at hld
      exact absurd hld (by decide)
    | PP =>
      rw [lastIsDigit_eq s.expr '.' hs.2.2.2] at hld
      exact absurd hld (by decide)
    | OO =>
      obtain ⟨_, _, ⟨cc, hl, hcc⟩⟩ := hs
      rw [lastIsDigit_eq s.expr cc hl, isOpCh_not_digit cc hcc] at hld
      exact absurd hld (by decide)
    | CC =>
      rw [lastIsDigit_eq s.expr '%' hs.2.2] at hld
      exact absurd hld (by decide)
  · exact h

/-- Stripping before an operator lands in a state that accepts an
operator: a digit-run state or the after-percent state. -/
theorem stripForOp_dfa (e : Str) (st : DSt) (hst : runDFA e = some st) (hne : e ≠ []) :
    ∃ st', runDFA (stripForOp e) = some st' ∧
      (st' = DSt.DD ∨ st' = DSt.FF ∨ st' = DSt.CC) := by
  have hs := runDFA_inv e st hst
  unfold stripForOp
  split
  · next hop =>
    have hstOO : st = DSt.OO := by
      cases st with
      | OO => rfl
      | S0 => exact absurd hs hne
      | DD =>
        obtain ⟨_, _, _, _, ⟨d, hl, hd⟩⟩ := hs
        rw [lastIsOp_eq e d hl, digit_not_opCh d hd] at hop
        exact absurd hop (by decide)
      | PP =>
        rw [lastIsOp_eq e '.' hs.2.2.2] at hop
        exact absurd hop (by decide)
      | FF =>
        obtain ⟨_, _, _, ⟨d, hl, hd⟩⟩ := hs
        rw [lastIsOp_eq e d hl, digit_not_opCh d hd] at hop
        exact absurd hop (by decide)
      | CC =>
        rw [lastIsOp_eq e '%' hs.2.2] at hop
        exact absurd hop (by decide)
    subst hstOO
    obtain ⟨_, _, ⟨cc, hl, hcc⟩⟩ := hs
    have hdecomp : e.dropLast ++ [cc] = e :=
      List.dropLast_append_getLast? cc (by rw [hl]; rfl)
    have hrun : runDFA (e.dropLast ++ [cc]) = some DSt.OO := by
      rw [hdecomp]
      exact hst
    rw [runDFA_concat] at hrun
    cases hr1 : runDFA e.dropLast with
    | none =>
      rw [hr1] at hrun
      exact absurd hrun (by simp)
    | some s1 =>
      rw [hr1] at hrun
      simp only [Option.some_bind] at hrun
      have hmem := dstep_to_OO s1 cc hrun
      have hs1 := runDFA_inv _ s1 hr1
      have hnd : (e.dropLast).getLast? ≠ some '.' := by
        rcases hmem with rfl | rfl | rfl
        · obtain ⟨_, _, _, _, ⟨d, hl2, hd⟩⟩ := hs1
          rw [hl2]
          intro hco
          injection hco with h1
          subst h1
          exact absurd hd (by decide)
        · obtain ⟨_, _, _, ⟨d, hl2, hd⟩⟩ := hs1
          rw [hl2]
          intro hco
          injection hco with h1
          subst h1
          exact absurd hd (by decide)
        · rw [hs1.2.2]
          intro hco
          exact absurd hco (by decide)
      rw [if_neg hnd]
      exact ⟨s1, hr1, hmem⟩
  · next hop =>
    split
    · next hdot =>
      have hstPP : st = DSt.PP := by
        cases st with
        | PP => rfl
        | S0 => exact absurd hs hne
        | DD =>
          obtain ⟨_, _, _, _, ⟨d, hl, hd⟩⟩ := hs
          rw [hl] at hdot
          injection hdot with h1
          subst h1
          exact absurd hd (by decide)
        | FF =>
          obtain ⟨_, _, _, ⟨d, hl, hd⟩⟩ := hs
          rw [hl] at hdot
          injection hdot with h1
          subst h1
          exact absurd hd (by decide)
        | OO =>
          obtain ⟨_, _, ⟨cc, hl, hcc⟩⟩ := hs
          rw [hl] at hdot
          injection hdot with h1
          subst h1
          exact absurd hcc (by decide)
        | CC =>
          rw [hs.2.2] at hdot
          exact absurd hdot (by decide)
      subst hstPP
      have hdecomp : e.dropLast ++ ['.'] = e :=
        List.dropLast_append_getLast? '.' (by rw [hdot]; rfl)
      have hrun : runDFA (e.dropLast ++ ['.']) = some DSt.PP := by
        rw [hdecomp]
        exact hst
      rw [runDFA_concat] at hrun
      cases hr1 : runDFA e.dropLast with
      | none =>
        rw [hr1] at hrun
        exact absurd hrun (by simp)
      | some s2 =>
        rw [hr1] at hrun
        simp only [Option.some_bind] at hrun
        have hs2 := dstep_to_PP s2 '.' hrun
        subst hs2
        exact ⟨DSt.DD, rfl, Or.inl rfl⟩
    · next hdot =>
      refine ⟨st, hst, ?_⟩
      cases st with
      | S0 => exact absurd hs hne
      | DD => exact Or.inl rfl
      | PP => exact absurd hs.2.2.2 hdot
      | FF => exact Or.inr (Or.inl rfl)
      | OO =>
        obtain ⟨_, _, ⟨cc, hl, hcc⟩⟩ := hs
        exact absurd (by rw [lastIsOp_eq e cc hl]; exact hcc) hop
      | CC => exact Or.inr (Or.inr rfl)

/-- The operator branch stays inside the automaton's language. -/
theorem pressOp_dfa (c : Char) (hc : isOpCh c = true) (s : CalcState)
    (h : (runDFA s.expr).isSome = true) :
    (runDFA (pressOp [c] s).expr).isSome = true := by
  unfold pressOp
  split
  · split
    · decide
    · exact h
  · next hne =>
    obtain ⟨st, hst⟩ := Option.isSome_iff_exists.mp h
    obtain ⟨st', hrun', hmem⟩ := stripForOp_dfa s.expr st hst hne
    show (runDFA (stripForOp s.expr ++ [c])).isSome = true
    rw [runDFA_concat, hrun']
    simp only [Option.some_bind]
    rcases hmem with rfl | rfl | rfl <;>
      rcases isOpCh_mem c hc with rfl | rfl | rfl | rfl <;> decide

/-- The digit branch stays inside the automaton's language. -/
theorem pressDigit_dfa (d : Char) (hd : d.isDigit = true) (s : CalcState)
    (h : (runDFA s.expr).isSome = true) :
    (runDFA (pressDigit [d] s).expr).isSome = true := by
  obtain ⟨st, hst⟩ := Option.isSome_iff_exists.mp h
  unfold pressDigit
  split
  · show (runDFA (s.expr.dropLast ++ [d])).isSome = true
    rw [runDFA_concat]
    obtain ⟨st2, hst2⟩ := Option.isSome_iff_exists.mp (runDFA_dropLast_isSome _ h)
    rw [hst2]
    simp only [Option.some_bind]
    exact dstep_digit_isSome st2 d hd
  · show (runDFA (s.expr ++ [d])).isSome = true
    rw [runDFA_concat, hst]
    simp only [Option.some_bind]
    exact dstep_digit_isSome st d hd

/-- Every non-Evaluate alphabet key keeps the buffer in the automaton's
language. -/
theorem press_keeps_dfa (k : Str) (s : CalcState) (hk : k ∈ keyAlphabet)
    (hke : k ≠ ['=']) (h : (runDFA s.expr).isSome = true) :
    (runDFA (press k s).expr).isSome = true := by
  unfold press
  split
  · decide
  · split
    · exact pressDel_dfa s h
    · split
      · exact pressDot_dfa s h
      · split
        · exact pressPct_dfa s h
        · split
          · next hisop =>
            obtain ⟨c, rfl⟩ : ∃ c, k = [c] := by
              have hlen := (by decide :
                ∀ x ∈ keyAlphabet, isOp x = true → x.length = 1) k hk hisop
              cases k with
              | nil => simp at hlen
              | cons c t =>
                cases t with
                | nil => exact ⟨c, rfl⟩
                | cons d u => simp at hlen
            exact pressOp_dfa c hisop s h
          · split
            · next hdig =>
              obtain ⟨d, rfl, hd⟩ : ∃ d, k = [d] ∧ d.isDigit = true := by
                have hinfo := (by decide : ∀ x ∈ keyAlphabet,
                  (strLe ['0'] x = true ∧ strLe x ['9'] = true) →
                    x.length = 1 ∧ ∀ cc ∈ x, cc.isDigit = true) k hk hdig
                cases k with
                | nil => simp at hinfo
                | cons c t =>
                  cases t with
                  | nil => exact ⟨c, rfl, hinfo.2 c (by simp)⟩
                  | cons d u => exact absurd hinfo.1 (by simp)
              exact pressDigit_dfa d hd s h
            · exact h

/-- A buffer accepted by the automaton tokenizes to a sequence the
relaxed prefix grammar accepts. -/
theorem wfp_of_runDFA (e : Str) (st : DSt) (hst : runDFA e = some st) :
    WFPrefixRelaxed (tokenize e) = true := by
  have hs := runDFA_inv e st hst
  unfold WFPrefixRelaxed
  rw [tokenize_eq_scan]
  show (runTok true (emitT e ++ flushBuf (bufT e))).isSome = true
  cases st with
  | S0 =>
    have hl : e = [] := hs
    subst hl
    decide
  | DD =>
    obtain ⟨_, hbne, hbdig, ⟨t0, ht0, htn⟩, _⟩ := hs
    rw [show flushBuf (bufT e) = [bufT e] from by unfold flushBuf; rw [if_neg hbne]]
    rw [runTok_concat, ht0]
    simp only [Option.some_bind]
    rw [tokC_num _ (jsNum_isSome_digits _ hbne hbdig), htn]
    rfl
  | PP =>
    obtain ⟨_, ⟨bd, hbd, hbdne, hbddig⟩, ⟨t0, ht0, htn⟩, _⟩ := hs
    have hbne : bufT e ≠ [] := by
      rw [hbd]
      exact append_ne_nil_right _ _ (by simp)
    rw [show flushBuf (bufT e) = [bufT e] from by unfold flushBuf; rw [if_neg hbne]]
    rw [runTok_concat, ht0]
    simp only [Option.some_bind]
    rw [show tokC (bufT e) = TokC.num from by
      rw [hbd]
      exact tokC_num _ (jsNum_isSome_dotted bd [] hbdne hbddig
        (fun c hc => absurd hc (List.not_mem_nil c)))]
    rw [htn]
    rfl
  | FF =>
    obtain ⟨_, ⟨b1, b2, hbd, h1ne, _, hd1, hd2⟩, ⟨t0, ht0, htn⟩, _⟩ := hs
    have hbne : bufT e ≠ [] := by
      rw [hbd]
      exact append_ne_nil_right _ _ (by simp)
    rw [show flushBuf (bufT e) = [bufT e] from by unfold flushBuf; rw [if_neg hbne]]
    rw [runTok_concat, ht0]
    simp only [Option.some_bind]
    rw [show tokC (bufT e) = TokC.num from by
      rw [hbd]
      exact tokC_num _ (jsNum_isSome_dotted b1 b2 h1ne hd1 hd2)]
    rw [htn]
    rfl
  | OO =>
    obtain ⟨hb0, hto, _⟩ := hs
    rw [hb0]
    show (runTok true (emitT e ++ flushBuf [])).isSome = true
    rw [show flushBuf ([] : Str) = [] from rfl, List.append_nil, hto]
    rfl
  | CC =>
    obtain ⟨hb0, htp, _⟩ := hs
    rw [hb0]
    show (runTok true (emitT e ++ flushBuf [])).isSome = true
    rw [show flushBuf ([] : Str) = [] from rfl, List.append_nil, htp]
    rfl

/-- **C2, amended.**  For every state reachable from the initial state by
presses of logical-alphabet keys other than Evaluate, the buffer
tokenizes to a sequence that is empty or a well-formed prefix in the
relaxed grammar that also lets a new operand begin directly after a
percent.  (The claim's own grammar fails on the reachable buffer `5%3`;
and after an Evaluate, results such as `-5` contain characters the
tokenizer drops, from which deletions can expose, e.g., a leading
operator token.) -/
theorem c2_amended (ks : List Str) (h : ∀ k ∈ ks, k ∈ keyAlphabet ∧ k ≠ ['=']) :
    WFPrefixRelaxed (tokenize (pressSeq ks initState).expr) = true := by
  have main : ∀ (l : List Str) (s : CalcState), (∀ k ∈ l, k ∈ keyAlphabet ∧ k ≠ ['=']) →
      (runDFA s.expr).isSome = true → (runDFA (pressSeq l s).expr).isSome = true := by
    intro l
    induction l with
    | nil => intro s _ hs; exact hs
    | cons k t ih =>
      intro s hl hs
      exact ih (press k s) (fun x hx => hl x (List.mem_cons_of_mem _ hx))
        (press_keeps_dfa k s (hl k (by simp)).1 (hl k (by simp)).2 hs)
  obtain ⟨st, hst⟩ := Option.isSome_iff_exists.mp (main ks initState h (by decide))
  exact wfp_of_runDFA _ st hst

/-- Witness for `c2_amended`: the counterexample sequence itself is
accepted by the relaxed grammar. -/
theorem c2_amended_witness :
    WFPrefixRelaxed (tokenize (pressSeq [['5'], ['%'], ['3']] initState).expr) = true :=
  c2_amended [['5'], ['%'], ['3']] (by decide)

end CalcApp
